import Mathlib

/-
  Shallow embedding of src/Programs/FileSystemMock.c: an in-memory block
  file system (640 blocks of 2048 bytes, 128 directory slots, maximum file
  size 98304 bytes) with put/get/delete/list/df operations.

  Modelling conventions:
  * The three globals `directory`, `file_data` and `used_space` become the
    fields of the `FSState` structure.  C globals are zero-initialised, so
    the initial state has every inode zeroed (note: `blocks` starts as all
    zeros, not as sentinels) and every block free.
  * Machine integers are modelled as `Nat` (sizes, block contents) and
    `Int` (entries of the `blocks` array, whose values mix block indices,
    the `NEGATIVE`(-1) sentinel and `UNSET`(0)).  No value in any claim
    approaches an overflow boundary.
  * The external OS file that `put` reads via stat/fopen/fread is modelled
    as the byte list `bytes` (so `stat` size and the readable content
    agree), and a possible fread failure (`bytes == 0 && !feof`) at the
    i-th loop iteration is modelled by the oracle argument `failAt = some i`.
    The `args[1] == NULL` check and the `stat` failure path concern the
    out-of-scope shell layer and the host file system and are not part of
    the engine state; they are omitted (both return before touching any
    engine state).
  * Out-of-bounds array accesses (indexing `file_data` with -1, reading
    `blocks[48]`) are undefined behaviour in C; the model makes them
    explicit outcomes (`PutOutcome.ub`, `DeleteOutcome.oobList`, ...).
-/

set_option maxRecDepth 8192

namespace FileSystemMock

/-- FILE_SYSTEM_SIZE from the source: 1310720 bytes. -/
def FILE_SYSTEM_SIZE : Nat := 1310720

/-- BLOCK_SIZE from the source: 2048 bytes. -/
def BLOCK_SIZE : Nat := 2048

/-- DIRECTORY_SIZE from the source: 128 inode slots. -/
def DIRECTORY_SIZE : Nat := 128

/-- TOTAL_BLOCKS = FILE_SYSTEM_SIZE / BLOCK_SIZE = 640. -/
def TOTAL_BLOCKS : Nat := FILE_SYSTEM_SIZE / BLOCK_SIZE

/-- MAX_FILE_SIZE from the source: 98304 bytes. -/
def MAX_FILE_SIZE : Nat := 98304

/-- MAX_FILE_BLOCKS = MAX_FILE_SIZE / BLOCK_SIZE = 48. -/
def MAX_FILE_BLOCKS : Nat := MAX_FILE_SIZE / BLOCK_SIZE

/-- MAX_FILE_NAME from the source: 255. -/
def MAX_FILE_NAME : Nat := 255

/-- The `Inode` struct.  `used` is the `short` flag (SET/UNSET modelled as
Bool); `file_name` is the value of the stored C string (the character list
up to the terminator, which is what `strcmp` compares); `blocks` is the
48-entry `int` array. -/
structure Inode where
  used : Bool
  file_name : List Char
  size : Nat
  time_created : Nat
  blocks : List Int
deriving DecidableEq

/-- The zero-initialised inode of the C global `directory`: note that the
`blocks` array starts as 48 zeros (not sentinels). -/
def initInode : Inode :=
  { used := false, file_name := [], size := 0, time_created := 0
    blocks := List.replicate MAX_FILE_BLOCKS 0 }

/-- The whole engine state: the globals `directory` (its `files` array),
`used_space` and `file_data`.  `used_space b = true` models `SET`. -/
structure FSState where
  directory : Nat → Inode
  used_space : Nat → Bool
  file_data : Nat → Nat → Nat

/-- The zero-initialised state at program start. -/
def emptyState : FSState :=
  { directory := fun _ => initInode
    used_space := fun _ => false
    file_data := fun _ _ => 0 }

/-- Pointwise update of a function modelling an array store. -/
def updFn {α : Type} (f : Nat → α) (i : Nat) (v : α) : Nat → α :=
  fun j => if j = i then v else f j

/-- One character of the FILE_NAME_REGEX charset `[a-zA-Z0-9.]`. -/
def validChar (c : Char) : Bool :=
  c.isAlpha || c.isDigit || c == '.'

/-- The regex `^[a-zA-Z0-9.]{1,255}$` used by `put` to validate names. -/
def validName (name : List Char) : Bool :=
  decide (1 ≤ name.length) && decide (name.length ≤ 255) && name.all validChar

/-- Linear first-match scan `while (counter < n) { if (p counter) break; }`
returning the first index below `n` satisfying `p` (mirrors the loops of
`get_free_block`, `get_new_file_entry` and `delete`). -/
def scanFirst (p : Nat → Bool) (n : Nat) : Option Nat :=
  (List.range n).find? p

/-- Linear scan that keeps overwriting the found index without breaking
(mirrors the lookup loop of `get`, which has no `break`). -/
def scanLast (p : Nat → Bool) (n : Nat) : Option Nat :=
  (List.range n).foldl (fun acc i => if p i then some i else acc) none

/-- `get_new_file_entry`: first directory slot whose `used` flag is unset;
the C function returns -1 when none exists, modelled by `none`. -/
def get_new_file_entry (dir : Nat → Inode) : Option Nat :=
  scanFirst (fun i => !(dir i).used) DIRECTORY_SIZE

/-- `get_free_block`: first block with `used_space == UNSET`; the C
function returns -1 when none exists, modelled by `none`. -/
def get_free_block (us : Nat → Bool) : Option Nat :=
  scanFirst (fun i => !us i) TOTAL_BLOCKS

/-- `disk_availability`: adds BLOCK_SIZE for every block whose
`used_space` entry is 0 (the `print` flag only affects stdout). -/
def disk_availability (us : Nat → Bool) : Nat :=
  (List.range TOTAL_BLOCKS).foldl
    (fun acc i => if us i then acc else acc + BLOCK_SIZE) 0

/-- The error messages `put` can print, one constructor per `return`. -/
inductive PutError
  | nameTooLong
  | invalidName
  | fileTooLarge
  | insufficientSpace
  | directoryFull
  | sourceReadError
deriving DecidableEq

/-- Result of `put`.  `err e st` carries the engine state at the moment of
the early `return` (the read-error return happens mid-loop, so that state
can differ from the initial one).  `ub` marks the undefined behaviour of
`fread(file_data[-1], ...)` when `get_free_block` found no free block. -/
inductive PutOutcome
  | ok (st : FSState)
  | err (e : PutError) (st : FSState)
  | ub

/-- Result of the block-copy loop of `put`, before the directory entry is
filled in: the updated pool state plus the list of allocated block
indices in allocation order. -/
inductive CopyResult
  | ok (us : Nat → Bool) (fd : Nat → Nat → Nat) (alloc : List Nat)
  | readErr (us : Nat → Bool) (fd : Nat → Nat → Nat) (alloc : List Nat)
  | ub

/-- Chunk splitter with explicit structural fuel (one unit per produced
chunk), so that the definition reduces by evaluation. -/
def chunksGo : Nat → List Nat → List (List Nat)
  | _, [] => []
  | 0, _ :: _ => []
  | f + 1, x :: xs =>
    (x :: xs).take BLOCK_SIZE :: chunksGo f ((x :: xs).drop BLOCK_SIZE)

/-- The source file cut into BLOCK_SIZE chunks: the fread of iteration i
deposits `bytes[offset .. offset+2048)` into the fresh block (the final
chunk may be shorter; trailing bytes of that block keep their old value).
The fuel MAX_FILE_BLOCKS is exact on the domain where `put` runs its copy
loop: the loop executes ceil(size / BLOCK_SIZE) iterations and is only
reached after the `size ≤ MAX_FILE_SIZE` check, i.e. for at most
MAX_FILE_BLOCKS chunks. -/
def chunks (bytes : List Nat) : List (List Nat) :=
  chunksGo MAX_FILE_BLOCKS bytes

/-- Store one fread result: bytes `0 .. c.length` of block `b` become `c`,
all other bytes of the pool keep their old value. -/
def writeChunk (fd : Nat → Nat → Nat) (b : Nat) (c : List Nat) :
    Nat → Nat → Nat :=
  fun blk i => if blk = b then c.getD i (fd blk i) else fd blk i

/-- The `while (copy_size > 0)` loop of `put`, one recursive step per
chunk.  Per iteration: `new_block = get_free_block()` (unchecked: `none`
is the `file_data[-1]` undefined behaviour), the fread (which fails iff
`failAt = some iter`, aborting the whole operation with the loop's partial
state kept, exactly like the early `return` in the C code), then
`blocks[counter] = new_block` and `used_space[new_block] = SET`. -/
def putCopyLoop (failAt : Option Nat) (iter : Nat) (us : Nat → Bool)
    (fd : Nat → Nat → Nat) : List (List Nat) → CopyResult
  | [] => .ok us fd []
  | c :: rest =>
    match get_free_block us with
    | none => .ub
    | some nb =>
      if failAt = some iter then .readErr us fd []
      else
        match putCopyLoop failAt (iter + 1) (updFn us nb true)
            (writeChunk fd nb c) rest with
        | .ok us' fd' alloc => .ok us' fd' (nb :: alloc)
        | .readErr us' fd' alloc => .readErr us' fd' (nb :: alloc)
        | .ub => .ub

/-- The inode a successful `put` leaves in the acquired slot: the
allocated blocks in allocation order, the remaining entries filled with
the sentinel, then name/size/timestamp and the `used` flag. -/
def putInode (name : List Char) (size now : Nat) (alloc : List Nat) : Inode :=
  { used := true, file_name := name, size := size, time_created := now
    blocks := alloc.map Int.ofNat
      ++ List.replicate (MAX_FILE_BLOCKS - alloc.length) (-1) }

/-- `put`: validations in source order (name length, regex, size ceiling,
free space, directory slot), then the copy loop, then the entry fields.
On the mid-loop read error the C code returns with the blocks allocated so
far still marked and `blocks[0..j)` of the (still unused) slot already
overwritten; the remaining entry fields are untouched. -/
def put (st : FSState) (name : List Char) (bytes : List Nat)
    (failAt : Option Nat) (now : Nat) : PutOutcome :=
  if name.length > MAX_FILE_NAME then .err .nameTooLong st
  else if validName name = false then .err .invalidName st
  else if bytes.length > MAX_FILE_SIZE then .err .fileTooLarge st
  else if bytes.length > disk_availability st.used_space then
    .err .insufficientSpace st
  else
    match get_new_file_entry st.directory with
    | none => .err .directoryFull st
    | some idx =>
      match putCopyLoop failAt 0 st.used_space st.file_data (chunks bytes) with
      | .ub => .ub
      | .readErr us' fd' alloc =>
        .err .sourceReadError
          { directory := updFn st.directory idx
              { st.directory idx with
                blocks := alloc.map Int.ofNat
                  ++ (st.directory idx).blocks.drop alloc.length }
            used_space := us', file_data := fd' }
      | .ok us' fd' alloc =>
        .ok
          { directory := updFn st.directory idx
              (putInode name bytes.length now alloc)
            used_space := us', file_data := fd' }

/-- The name lookup of `get`: compares every slot's stored string with the
requested name and keeps the LAST matching index (the loop has no break),
never consulting the `used` flag. -/
def find_file_last (st : FSState) (name : List Char) : Option Nat :=
  scanLast (fun i => (st.directory i).file_name == name) DIRECTORY_SIZE

/-- The name lookup of `delete`: same comparison but with `break`, so the
FIRST matching index wins; the `used` flag is again not consulted. -/
def find_file_first (st : FSState) (name : List Char) : Option Nat :=
  scanFirst (fun i => (st.directory i).file_name == name) DIRECTORY_SIZE

/-- Result of `get`: the byte sequence written to the output file, the
NotFound error, or the undefined behaviour of reading `blocks[48]` or
indexing `file_data` with a negative / too large block index. -/
inductive GetResult
  | ok (bytes : List Nat)
  | notFound
  | ub
deriving DecidableEq

/-- The first `n` logical bytes of block `b`. -/
def blockRead (fd : Nat → Nat → Nat) (b : Nat) (n : Nat) : List Nat :=
  (List.range n).map (fd b)

/-- The `while (copy_size > 0)` loop of `get`: per iteration it writes
`min remaining BLOCK_SIZE` bytes of `file_data[blocks[counter]]` and
decrements the remaining count by BLOCK_SIZE (saturating, like the C
`long` turning non-positive).  Walking past `blocks[47]` or meeting a
block index outside `[0, TOTAL_BLOCKS)` is undefined behaviour (`none`). -/
def getCopyLoop (fd : Nat → Nat → Nat) : List Int → Nat → Option (List Nat)
  | _, 0 => some []
  | [], _ + 1 => none
  | b :: rest, r + 1 =>
    if b < 0 ∨ (TOTAL_BLOCKS : Int) ≤ b then none
    else
      (getCopyLoop fd rest (r + 1 - BLOCK_SIZE)).map
        (fun tail => blockRead fd b.toNat (min (r + 1) BLOCK_SIZE) ++ tail)

/-- `get` (the `override_name` third argument only renames the output file
on the host side and does not touch engine state, so it is omitted). -/
def get (st : FSState) (name : List Char) : GetResult :=
  match find_file_last st name with
  | none => .notFound
  | some idx =>
    match getCopyLoop st.file_data (st.directory idx).blocks
        (st.directory idx).size with
    | none => .ub
    | some bytes => .ok bytes

/-- Output of the block-freeing loop of `delete`: the rewritten `blocks`
array of the entry plus the updated pool state. -/
structure DelLoopOut where
  newBlocks : List Int
  us : Nat → Bool
  fd : Nat → Nat → Nat

/-- Result of the block-freeing loop: success, or the out-of-bounds read
of `blocks[48]` (no sentinel found), or an out-of-range block index used
to index `used_space` / `file_data`. -/
inductive DelLoopRes
  | ok (out : DelLoopOut)
  | oobList
  | oobBlock

/-- `delete`'s `while (block_num > -1)` loop: zero byte 0 of the block
(`file_data[block_num][0] = '\0'` touches only the first byte), clear its
`used_space` flag, overwrite the list entry with `UNSET` (0, not the
sentinel), and step to the next entry.  Exhausting the 48 entries without
meeting a sentinel means the next read is `blocks[48]`: out of bounds. -/
def deleteCopyLoop (us : Nat → Bool) (fd : Nat → Nat → Nat) :
    List Int → DelLoopRes
  | [] => .oobList
  | b :: rest =>
    if b ≤ -1 then .ok ⟨b :: rest, us, fd⟩
    else if (TOTAL_BLOCKS : Int) ≤ b then .oobBlock
    else
      match deleteCopyLoop (updFn us b.toNat false)
          (fun blk i => if blk = b.toNat ∧ i = 0 then 0 else fd blk i) rest with
      | .ok out => .ok ⟨(0 : Int) :: out.newBlocks, out.us, out.fd⟩
      | r => r

/-- Result of `delete`. -/
inductive DeleteOutcome
  | ok (st : FSState)
  | notFound
  | oobList
  | oobBlock

/-- The inode `delete` leaves behind: cleared flags and name, the freed
prefix of the block list overwritten with `UNSET` (0). -/
def freedInode (bs : List Int) : Inode :=
  { used := false, file_name := [], size := 0, time_created := 0
    blocks := bs }

/-- `delete`: first-match lookup, the freeing loop, then the entry reset
(`size = 0`, `time_created = 0`, `used = UNSET`, `file_name[0] = '\0'`). -/
def delete (st : FSState) (name : List Char) : DeleteOutcome :=
  match find_file_first st name with
  | none => .notFound
  | some idx =>
    match deleteCopyLoop st.used_space st.file_data
        (st.directory idx).blocks with
    | .oobList => .oobList
    | .oobBlock => .oobBlock
    | .ok out =>
      .ok
        { directory := updFn st.directory idx (freedInode out.newBlocks)
          used_space := out.us, file_data := out.fd }

/-- Projection extracting the state carried by a `put` outcome (used to
name the result states of concrete runs in closed statements). -/
def outcomeState (r : PutOutcome) : FSState :=
  match r with
  | .ok st => st
  | .err _ st => st
  | .ub => emptyState

/-- Projection extracting the state of a successful `delete`. -/
def delOkState (r : DeleteOutcome) : FSState :=
  match r with
  | .ok st => st
  | _ => emptyState

/-! ### Characterisations of the linear scans -/

theorem scanLast_succ (p : Nat → Bool) (n : Nat) :
    scanLast p (n + 1) = if p n then some n else scanLast p n := by
  unfold scanLast
  rw [List.range_succ, List.foldl_append]
  rfl

theorem scanLast_eq_some_iff (p : Nat → Bool) :
    ∀ n i, scanLast p n = some i ↔
      i < n ∧ p i = true ∧ ∀ j, i < j → j < n → p j = false := by
  intro n
  induction n with
  | zero => intro i; simp [scanLast]
  | succ n ih =>
    intro i
    rw [scanLast_succ]
    by_cases hp : p n = true
    · simp only [hp, if_true]
      constructor
      · intro h
        have hi : i = n := by
          have := Option.some.inj h; omega
        subst hi
        exact ⟨by omega, hp, fun j hj hj' => by omega⟩
      · rintro ⟨hi, hpi, hmax⟩
        have : i = n := by
          by_contra hne
          have hilt : i < n := by omega
          have := hmax n hilt (by omega)
          rw [hp] at this; cases this
        subst this; rfl
    · have hp' : p n = false := by
        cases h : p n
        · rfl
        · exact absurd h hp
      simp only [hp', if_false, Bool.false_eq_true]
      rw [ih i]
      constructor
      · rintro ⟨hi, hpi, hmax⟩
        refine ⟨by omega, hpi, fun j hj hj' => ?_⟩
        by_cases hjn : j = n
        · subst hjn; exact hp'
        · exact hmax j hj (by omega)
      · rintro ⟨hi, hpi, hmax⟩
        have hin : i ≠ n := fun h => by subst h; rw [hpi] at hp'; cases hp'
        exact ⟨by omega, hpi, fun j hj hj' => hmax j hj (by omega)⟩

theorem scanLast_eq_none_iff (p : Nat → Bool) :
    ∀ n, scanLast p n = none ↔ ∀ j, j < n → p j = false := by
  intro n
  induction n with
  | zero => simp [scanLast]
  | succ n ih =>
    rw [scanLast_succ]
    by_cases hp : p n = true
    · simp only [hp, if_true]
      constructor
      · intro h; cases h
      · intro h
        have := h n (by omega)
        rw [hp] at this; cases this
    · have hp' : p n = false := by
        cases h : p n
        · rfl
        · exact absurd h hp
      simp only [hp', if_false, Bool.false_eq_true]
      rw [ih]
      constructor
      · intro h j hj
        by_cases hjn : j = n
        · subst hjn; exact hp'
        · exact h j (by omega)
      · intro h j hj
        exact h j (by omega)

theorem find?_append_cases {α : Type} (p : α → Bool) :
    ∀ l₁ l₂ : List α, (l₁ ++ l₂).find? p =
      match l₁.find? p with
      | some a => some a
      | none => l₂.find? p := by
  intro l₁ l₂
  induction l₁ with
  | nil => simp
  | cons a t ih =>
    cases h : p a
    · simp only [List.cons_append, List.find?_cons, h, ih]
    · simp only [List.cons_append, List.find?_cons, h]

theorem scanFirst_succ (p : Nat → Bool) (n : Nat) :
    scanFirst p (n + 1) =
      match scanFirst p n with
      | some a => some a
      | none => if p n then some n else none := by
  unfold scanFirst
  rw [List.range_succ, find?_append_cases]
  cases (List.range n).find? p
  · cases h : p n <;> simp [List.find?_cons, h]
  · rfl

theorem scanFirst_eq_none_iff (p : Nat → Bool) (n : Nat) :
    scanFirst p n = none ↔ ∀ j, j < n → p j = false := by
  unfold scanFirst
  rw [List.find?_eq_none]
  constructor
  · intro h j hj
    have := h j (List.mem_range.mpr hj)
    cases hpj : p j
    · rfl
    · exact absurd hpj this
  · intro h x hx
    rw [h x (List.mem_range.mp hx)]
    simp

theorem scanFirst_eq_some_iff (p : Nat → Bool) :
    ∀ n i, scanFirst p n = some i ↔
      i < n ∧ p i = true ∧ ∀ j, j < i → p j = false := by
  intro n
  induction n with
  | zero => intro i; simp [scanFirst]
  | succ n ih =>
    intro i
    rw [scanFirst_succ]
    cases hs : scanFirst p n with
    | some k =>
      have hk := (ih k).mp hs
      constructor
      · intro h
        have : k = i := Option.some.inj h
        subst this
        exact ⟨by omega, hk.2.1, hk.2.2⟩
      · rintro ⟨hi, hpi, hmin⟩
        have : i = k := by
          rcases Nat.lt_trichotomy i k with h | h | h
          · have := hk.2.2 i h
            rw [hpi] at this; cases this
          · exact h
          · have := hmin k h
            rw [hk.2.1] at this; cases this
        subst this; rfl
    | none =>
      have hnone := (scanFirst_eq_none_iff p n).mp hs
      by_cases hp : p n = true
      · simp only [hp, if_true]
        constructor
        · intro h
          have : n = i := Option.some.inj h
          subst this
          exact ⟨by omega, hp, hnone⟩
        · rintro ⟨hi, hpi, _⟩
          have : i = n := by
            by_contra hne
            have := hnone i (by omega)
            rw [hpi] at this; cases this
          subst this; rfl
      · have hp' : p n = false := by
          cases h : p n
          · rfl
          · exact absurd h hp
        simp only [hp', if_false, Bool.false_eq_true]
        constructor
        · intro h; cases h
        · rintro ⟨hi, hpi, _⟩
          by_cases hin : i = n
          · subst hin; rw [hpi] at hp'; cases hp'
          · have := hnone i (by omega)
            rw [hpi] at this; cases this

/-! ### Counting free blocks -/

/-- Number of free blocks: `disk_availability` is this times BLOCK_SIZE. -/
def freeCount (us : Nat → Bool) : Nat :=
  (List.range TOTAL_BLOCKS).countP (fun i => !us i)

theorem foldl_if_add (us : Nat → Bool) :
    ∀ (l : List Nat) (acc : Nat),
      l.foldl (fun a i => if us i then a else a + BLOCK_SIZE) acc
        = acc + l.countP (fun i => !us i) * BLOCK_SIZE := by
  intro l
  induction l with
  | nil => intro acc; simp
  | cons a t ih =>
    intro acc
    cases h : us a
    · have h1 : (if us a = true then acc else acc + BLOCK_SIZE) = acc + BLOCK_SIZE := by
        rw [h]; simp
      have h2 : (!us a) = true := by rw [h]; rfl
      rw [List.foldl_cons, h1, ih, List.countP_cons, h2]
      simp only [if_true]
      ring
    · have h1 : (if us a = true then acc else acc + BLOCK_SIZE) = acc := by
        rw [h]; simp
      have h2 : (!us a) = false := by rw [h]; rfl
      rw [List.foldl_cons, h1, ih, List.countP_cons, h2]
      simp

theorem disk_availability_eq_freeCount (us : Nat → Bool) :
    disk_availability us = freeCount us * BLOCK_SIZE := by
  unfold disk_availability freeCount
  rw [foldl_if_add]
  simp

theorem countP_pos_find?_isSome (p : Nat → Bool) (n : Nat)
    (h : 0 < (List.range n).countP p) : ∃ b, scanFirst p n = some b := by
  cases hs : scanFirst p n with
  | some b => exact ⟨b, rfl⟩
  | none =>
    exfalso
    have hall := (scanFirst_eq_none_iff p n).mp hs
    have : (List.range n).countP p = 0 := by
      rw [List.countP_eq_zero]
      intro a ha
      rw [hall a (List.mem_range.mp ha)]
      simp
    omega

theorem countP_not_update (us : Nat → Bool) (nb : Nat) :
    ∀ (l : List Nat), l.Nodup → nb ∈ l → us nb = false →
      l.countP (fun b => !(updFn us nb true) b) + 1
        = l.countP (fun b => !us b) := by
  intro l
  induction l with
  | nil => intro _ hm; cases hm
  | cons a t ih =>
    intro hnd hm h
    rcases List.mem_cons.mp hm with rfl | hmt
    · have hnt : nb ∉ t := (List.nodup_cons.mp hnd).1
      have hhead : (!(updFn us nb true) nb) = false := by
        simp [updFn]
      have hhead' : (!us nb) = true := by simp [h]
      rw [List.countP_cons, List.countP_cons, hhead, hhead']
      have heq : t.countP (fun b => !(updFn us nb true) b) = t.countP (fun b => !us b) := by
        apply List.countP_congr
        intro b hb
        have : b ≠ nb := fun hbn => hnt (hbn ▸ hb)
        simp [updFn, this]
      rw [heq]
      simp
    · have hanb : a ≠ nb ∨ a = nb := by tauto
      rcases hanb with hanb | rfl
      · rw [List.countP_cons, List.countP_cons]
        have : (!(updFn us nb true) a) = (!us a) := by simp [updFn, hanb]
        rw [this]
        have := ih (List.nodup_cons.mp hnd).2 hmt h
        omega
      · exact absurd hmt (List.nodup_cons.mp hnd).1

theorem freeCount_update (us : Nat → Bool) (nb : Nat)
    (h : us nb = false) (hb : nb < TOTAL_BLOCKS) :
    freeCount (updFn us nb true) + 1 = freeCount us := by
  unfold freeCount
  exact countP_not_update us nb _ (List.nodup_range TOTAL_BLOCKS)
    (List.mem_range.mpr hb) h

/-! ### Space accounting is conservative for every occupancy map -/

/-- Bytes of all blocks currently marked InUse. -/
def usedBlocksBytes (us : Nat → Bool) : Nat :=
  (List.range TOTAL_BLOCKS).countP (fun i => us i) * BLOCK_SIZE

theorem countP_not_add (p : Nat → Bool) :
    ∀ l : List Nat, l.countP p + l.countP (fun a => !p a) = l.length := by
  intro l
  induction l with
  | nil => simp
  | cons a t ih =>
    rw [List.countP_cons, List.countP_cons, List.length_cons]
    cases h : p a <;> simp [h, Bool.not_false, Bool.not_true] <;> omega

theorem accounting (us : Nat → Bool) :
    disk_availability us + usedBlocksBytes us = TOTAL_BLOCKS * BLOCK_SIZE := by
  rw [disk_availability_eq_freeCount]
  unfold usedBlocksBytes freeCount
  have h := countP_not_add (fun i => us i) (List.range TOTAL_BLOCKS)
  rw [List.length_range] at h
  calc (List.range TOTAL_BLOCKS).countP (fun i => !us i) * BLOCK_SIZE
        + (List.range TOTAL_BLOCKS).countP (fun i => us i) * BLOCK_SIZE
      = ((List.range TOTAL_BLOCKS).countP (fun i => us i)
        + (List.range TOTAL_BLOCKS).countP (fun i => !us i)) * BLOCK_SIZE := by ring
    _ = TOTAL_BLOCKS * BLOCK_SIZE := by rw [h]

/-! ### Summing over the directory -/

theorem sum_map_update (f f' : Nat → Nat) :
    ∀ (l : List Nat), l.Nodup → ∀ idx, idx ∈ l → (∀ j, j ≠ idx → f' j = f j) →
      (l.map f').sum + f idx = (l.map f).sum + f' idx := by
  intro l
  induction l with
  | nil => intro _ idx hm; cases hm
  | cons a t ih =>
    intro hnd idx hm hagree
    rcases List.mem_cons.mp hm with rfl | hmt
    · have hnt : idx ∉ t := (List.nodup_cons.mp hnd).1
      have : t.map f' = t.map f := by
        apply List.map_congr_left
        intro b hb
        exact hagree b (fun hbn => hnt (hbn ▸ hb))
      simp only [List.map_cons, List.sum_cons, this]
      omega
    · by_cases haidx : a = idx
      · subst haidx; exact absurd hmt (List.nodup_cons.mp hnd).1
      · have hfa : f' a = f a := hagree a haidx
        simp only [List.map_cons, List.sum_cons, hfa]
        have := ih (List.nodup_cons.mp hnd).2 idx hmt hagree
        omega

theorem single_le_sum_map (f : Nat → Nat) :
    ∀ (l : List Nat) (idx : Nat), idx ∈ l → f idx ≤ (l.map f).sum := by
  intro l
  induction l with
  | nil => intro idx hm; cases hm
  | cons a t ih =>
    intro idx hm
    rcases List.mem_cons.mp hm with rfl | hmt
    · simp only [List.map_cons, List.sum_cons]; omega
    · have := ih idx hmt
      simp only [List.map_cons, List.sum_cons]; omega

/-! ### Chunk lemmas -/

theorem chunksGo_nil_any (f : Nat) : chunksGo f [] = [] := by
  cases f <;> rfl

theorem chunksGo_cons (f : Nat) (bytes : List Nat) (h : bytes ≠ []) :
    chunksGo (f + 1) bytes
      = bytes.take BLOCK_SIZE :: chunksGo f (bytes.drop BLOCK_SIZE) := by
  cases bytes with
  | nil => exact absurd rfl h
  | cons x xs => rfl

theorem chunksGo_flatten :
    ∀ (f : Nat) (bytes : List Nat), bytes.length ≤ f * BLOCK_SIZE →
      (chunksGo f bytes).flatten = bytes := by
  intro f
  induction f with
  | zero =>
    intro bytes h
    rw [Nat.zero_mul] at h
    have : bytes = [] := List.length_eq_zero.mp (by omega)
    subst this
    rw [chunksGo_nil_any]
    rfl
  | succ f ih =>
    intro bytes h
    cases bytes with
    | nil => rw [chunksGo_nil_any]; rfl
    | cons x xs =>
      rw [chunksGo_cons f (x :: xs) (by simp), List.flatten_cons]
      rw [ih ((x :: xs).drop BLOCK_SIZE) (by
        rw [List.length_drop]
        rw [Nat.succ_mul] at h
        simp only [BLOCK_SIZE] at h ⊢
        omega)]
      exact List.take_append_drop _ _

theorem chunksGo_length :
    ∀ (f : Nat) (bytes : List Nat), bytes.length ≤ f * BLOCK_SIZE →
      (chunksGo f bytes).length
        = (bytes.length + (BLOCK_SIZE - 1)) / BLOCK_SIZE := by
  intro f
  induction f with
  | zero =>
    intro bytes h
    rw [Nat.zero_mul] at h
    have : bytes = [] := List.length_eq_zero.mp (by omega)
    subst this
    rw [chunksGo_nil_any]
    simp [BLOCK_SIZE]
  | succ f ih =>
    intro bytes h
    cases bytes with
    | nil =>
      rw [chunksGo_nil_any]
      simp [BLOCK_SIZE]
    | cons x xs =>
      rw [chunksGo_cons f (x :: xs) (by simp), List.length_cons]
      rw [ih ((x :: xs).drop BLOCK_SIZE) (by
        rw [List.length_drop]
        rw [Nat.succ_mul] at h
        simp only [BLOCK_SIZE] at h ⊢
        omega)]
      rw [List.length_drop]
      rw [Nat.succ_mul] at h
      simp only [BLOCK_SIZE] at h ⊢
      have hx : 1 ≤ (x :: xs).length := by simp
      omega

theorem chunksGo_shape :
    ∀ (f : Nat) (bytes : List Nat), bytes.length ≤ f * BLOCK_SIZE →
      ∀ j c, (chunksGo f bytes).get? j = some c →
        c ≠ [] ∧ c.length ≤ BLOCK_SIZE
          ∧ ((chunksGo f bytes).get? (j + 1) ≠ none
              → c.length = BLOCK_SIZE) := by
  intro f
  induction f with
  | zero =>
    intro bytes h j c hc
    rw [Nat.zero_mul] at h
    have : bytes = [] := List.length_eq_zero.mp (by omega)
    subst this
    rw [chunksGo_nil_any] at hc
    cases hc
  | succ f ih =>
    intro bytes h j c hc
    cases bytes with
    | nil =>
      rw [chunksGo_nil_any] at hc
      cases hc
    | cons x xs =>
      have hlen : 1 ≤ (x :: xs).length := by simp
      have hdroplen : ((x :: xs).drop BLOCK_SIZE).length ≤ f * BLOCK_SIZE := by
        rw [List.length_drop]
        rw [Nat.succ_mul] at h
        simp only [BLOCK_SIZE] at h ⊢
        omega
      rw [chunksGo_cons f (x :: xs) (by simp)] at hc ⊢
      cases j with
      | zero =>
        simp only [List.get?_cons_zero, Option.some.injEq] at hc
        subst hc
        refine ⟨?_, ?_, ?_⟩
        · intro habs
          have hlen0 : ((x :: xs).take BLOCK_SIZE).length = 0 := by
            rw [habs]; rfl
          rw [List.length_take] at hlen0
          simp only [BLOCK_SIZE] at hlen0
          simp only [List.length_cons] at hlen0
          omega
        · simp [List.length_take]
        · intro hnext
          simp only [List.get?_cons_succ] at hnext
          have hne : chunksGo f ((x :: xs).drop BLOCK_SIZE) ≠ [] := by
            intro habs
            rw [habs] at hnext
            exact hnext rfl
          have hd : (x :: xs).drop BLOCK_SIZE ≠ [] := by
            intro habs
            rw [habs, chunksGo_nil_any] at hne
            exact hne rfl
          have hbig : BLOCK_SIZE < (x :: xs).length := by
            by_contra hle
            exact hd (List.drop_eq_nil_of_le (by omega))
          simp only [List.length_take, List.length_cons]
          simp only [List.length_cons] at hbig
          omega
      | succ j =>
        simp only [List.get?_cons_succ] at hc ⊢
        exact ih ((x :: xs).drop BLOCK_SIZE) hdroplen j c hc

theorem max_size_blocks : MAX_FILE_SIZE = MAX_FILE_BLOCKS * BLOCK_SIZE := by
  decide

theorem chunks_flatten (bytes : List Nat)
    (hsize : bytes.length ≤ MAX_FILE_SIZE) :
    (chunks bytes).flatten = bytes :=
  chunksGo_flatten MAX_FILE_BLOCKS bytes (by rw [← max_size_blocks]; exact hsize)

theorem chunks_length (bytes : List Nat)
    (hsize : bytes.length ≤ MAX_FILE_SIZE) :
    (chunks bytes).length = (bytes.length + (BLOCK_SIZE - 1)) / BLOCK_SIZE :=
  chunksGo_length MAX_FILE_BLOCKS bytes (by rw [← max_size_blocks]; exact hsize)

theorem chunks_shape (bytes : List Nat)
    (hsize : bytes.length ≤ MAX_FILE_SIZE) :
    ∀ j c, (chunks bytes).get? j = some c →
      c ≠ [] ∧ c.length ≤ BLOCK_SIZE
        ∧ ((chunks bytes).get? (j + 1) ≠ none → c.length = BLOCK_SIZE) :=
  chunksGo_shape MAX_FILE_BLOCKS bytes (by rw [← max_size_blocks]; exact hsize)

/-! ### Behaviour of the copy loop of `put` -/

theorem get_free_block_spec (us : Nat → Bool) (b : Nat) :
    get_free_block us = some b ↔
      b < TOTAL_BLOCKS ∧ us b = false ∧ ∀ j, j < b → us j = true := by
  unfold get_free_block
  rw [scanFirst_eq_some_iff]
  simp only [Bool.not_eq_true', Bool.not_eq_false']

theorem get_free_block_of_freeCount (us : Nat → Bool) (h : 0 < freeCount us) :
    ∃ b, get_free_block us = some b ∧ b < TOTAL_BLOCKS ∧ us b = false := by
  obtain ⟨b, hb⟩ := countP_pos_find?_isSome _ _ h
  have hspec := (scanFirst_eq_some_iff (fun i => !us i) TOTAL_BLOCKS b).mp hb
  refine ⟨b, hb, hspec.1, ?_⟩
  have h2 := hspec.2.1
  rwa [Bool.not_eq_true'] at h2

/-- Everything the successful copy loop guarantees about the allocated
blocks and the final pool state, relative to the starting state. -/
structure PutLoopSpec (us : Nat → Bool) (fd : Nat → Nat → Nat)
    (cs : List (List Nat)) (us' : Nat → Bool) (fd' : Nat → Nat → Nat)
    (alloc : List Nat) : Prop where
  len : alloc.length = cs.length
  nodup : alloc.Nodup
  mem : ∀ b ∈ alloc, b < TOTAL_BLOCKS ∧ us b = false
  usIn : ∀ b ∈ alloc, us' b = true
  usOut : ∀ b, b ∉ alloc → us' b = us b
  fdOut : ∀ b, b ∉ alloc → ∀ i, fd' b i = fd b i
  content : ∀ j b c, alloc.get? j = some b → cs.get? j = some c →
    ∀ i, fd' b i = c.getD i (fd b i)

theorem putCopyLoop_ok_total :
    ∀ (cs : List (List Nat)) (us : Nat → Bool) (fd : Nat → Nat → Nat)
      (iter : Nat), cs.length ≤ freeCount us →
      ∃ us' fd' alloc, putCopyLoop none iter us fd cs = .ok us' fd' alloc ∧
        PutLoopSpec us fd cs us' fd' alloc := by
  intro cs
  induction cs with
  | nil =>
    intro us fd iter _
    refine ⟨us, fd, [], rfl, ?_⟩
    constructor
    · rfl
    · exact List.nodup_nil
    · intro b hb; cases hb
    · intro b hb; cases hb
    · intro b _; rfl
    · intro b _ i; rfl
    · intro j b c hb _; cases j <;> cases hb
  | cons c rest ih =>
    intro us fd iter hfree
    have hpos : 0 < freeCount us := by
      have : rest.length + 1 ≤ freeCount us := by
        simpa using hfree
      omega
    obtain ⟨nb, hnb, hnblt, hnbfree⟩ := get_free_block_of_freeCount us hpos
    have hfc : freeCount (updFn us nb true) + 1 = freeCount us :=
      freeCount_update us nb hnbfree hnblt
    have hfree' : rest.length ≤ freeCount (updFn us nb true) := by
      have : rest.length + 1 ≤ freeCount us := by simpa using hfree
      omega
    obtain ⟨us', fd', alloc', hloop, hspec⟩ :=
      ih (updFn us nb true) (writeChunk fd nb c) (iter + 1) hfree'
    have hnbni : nb ∉ alloc' := by
      intro hmem
      have := (hspec.mem nb hmem).2
      simp [updFn] at this
    refine ⟨us', fd', nb :: alloc', ?_, ?_⟩
    · show putCopyLoop none iter us fd (c :: rest) = _
      unfold putCopyLoop
      rw [hnb]
      have : (none : Option Nat) = some iter ↔ False := by simp
      simp only [this, if_neg (fun h => h), if_false]
      rw [hloop]
    · constructor
      · simp [hspec.len]
      · exact List.nodup_cons.mpr ⟨hnbni, hspec.nodup⟩
      · intro b hb
        rcases List.mem_cons.mp hb with rfl | hb'
        · exact ⟨hnblt, hnbfree⟩
        · have := hspec.mem b hb'
          refine ⟨this.1, ?_⟩
          have h2 := this.2
          by_cases hbnb : b = nb
          · subst hbnb; simp [updFn] at h2
          · simpa [updFn, hbnb] using h2
      · intro b hb
        rcases List.mem_cons.mp hb with rfl | hb'
        · rw [hspec.usOut b hnbni]
          simp [updFn]
        · exact hspec.usIn b hb'
      · intro b hb
        have hbnb : b ≠ nb := fun h => hb (h ▸ List.mem_cons_self _ _)
        have hb' : b ∉ alloc' := fun h => hb (List.mem_cons_of_mem _ h)
        rw [hspec.usOut b hb']
        simp [updFn, hbnb]
      · intro b hb i
        have hbnb : b ≠ nb := fun h => hb (h ▸ List.mem_cons_self _ _)
        have hb' : b ∉ alloc' := fun h => hb (List.mem_cons_of_mem _ h)
        rw [hspec.fdOut b hb' i]
        simp [writeChunk, hbnb]
      · intro j b cj hb hc i
        cases j with
        | zero =>
          simp only [List.get?_cons_zero, Option.some.injEq] at hb hc
          subst hb; subst hc
          rw [hspec.fdOut nb hnbni i]
          simp [writeChunk]
        | succ j =>
          simp only [List.get?_cons_succ] at hb hc
          have hbmem : b ∈ alloc' := List.get?_mem hb
          have hbnb : b ≠ nb := fun h => hnbni (h ▸ hbmem)
          have := hspec.content j b cj hb hc i
          rw [this]
          simp [writeChunk, hbnb]

theorem putCopyLoop_ne_ub :
    ∀ (cs : List (List Nat)) (us : Nat → Bool) (fd : Nat → Nat → Nat)
      (iter : Nat) (failAt : Option Nat), cs.length ≤ freeCount us →
      putCopyLoop failAt iter us fd cs ≠ .ub := by
  intro cs
  induction cs with
  | nil => intro us fd iter failAt _ h; cases h
  | cons c rest ih =>
    intro us fd iter failAt hfree
    have hpos : 0 < freeCount us := by
      have : rest.length + 1 ≤ freeCount us := by simpa using hfree
      omega
    obtain ⟨nb, hnb, hnblt, hnbfree⟩ := get_free_block_of_freeCount us hpos
    have hfc : freeCount (updFn us nb true) + 1 = freeCount us :=
      freeCount_update us nb hnbfree hnblt
    have hfree' : rest.length ≤ freeCount (updFn us nb true) := by
      have : rest.length + 1 ≤ freeCount us := by simpa using hfree
      omega
    intro h
    simp only [putCopyLoop, hnb] at h
    by_cases hfa : failAt = some iter
    · rw [if_pos hfa] at h; cases h
    · rw [if_neg hfa] at h
      have := ih (updFn us nb true) (writeChunk fd nb c) (iter + 1) failAt hfree'
      cases hrec : putCopyLoop failAt (iter + 1) (updFn us nb true)
          (writeChunk fd nb c) rest with
      | ok us' fd' alloc => simp only [hrec] at h; cases h
      | readErr us' fd' alloc => simp only [hrec] at h; cases h
      | ub => exact this hrec

theorem putCopyLoop_none_no_readErr :
    ∀ (cs : List (List Nat)) (us : Nat → Bool) (fd : Nat → Nat → Nat)
      (iter : Nat) (us' : Nat → Bool) (fd' : Nat → Nat → Nat)
      (alloc : List Nat),
      putCopyLoop none iter us fd cs ≠ .readErr us' fd' alloc := by
  intro cs
  induction cs with
  | nil => intro us fd iter us' fd' alloc h; cases h
  | cons c rest ih =>
    intro us fd iter us' fd' alloc h
    cases hnb : get_free_block us with
    | none => simp only [putCopyLoop, hnb] at h; cases h
    | some nb =>
      simp only [putCopyLoop, hnb] at h
      have hne : ¬ ((none : Option Nat) = some iter) := by simp
      rw [if_neg hne] at h
      cases hrec : putCopyLoop none (iter + 1) (updFn us nb true)
          (writeChunk fd nb c) rest with
      | ok u f a => simp only [hrec] at h; cases h
      | readErr u f a => exact ih _ _ _ u f a hrec
      | ub => simp only [hrec] at h; cases h

/-! ### Reading back what the copy loop wrote -/

theorem blockRead_eq_of_getD (fd fd0 : Nat → Nat → Nat) (b : Nat)
    (c : List Nat) (h : ∀ i, fd b i = c.getD i (fd0 b i)) :
    blockRead fd b c.length = c := by
  unfold blockRead
  apply List.ext_get
  · simp
  · intro n h1 h2
    simp only [List.get_map, List.get_range]
    rw [h]
    rw [List.getD_eq_get?, List.get?_eq_get h2]
    rfl

theorem getCopyLoop_zero (fd : Nat → Nat → Nat) (l : List Int) :
    getCopyLoop fd l 0 = some [] := by
  cases l <;> rfl

theorem getCopyLoop_readback :
    ∀ (cs : List (List Nat)) (alloc : List Nat) (fd : Nat → Nat → Nat)
      (pad : List Int),
      alloc.length = cs.length →
      (∀ b ∈ alloc, b < TOTAL_BLOCKS) →
      (∀ j c, cs.get? j = some c →
        c ≠ [] ∧ c.length ≤ BLOCK_SIZE
          ∧ (cs.get? (j + 1) ≠ none → c.length = BLOCK_SIZE)) →
      (∀ j b c, alloc.get? j = some b → cs.get? j = some c →
        blockRead fd b c.length = c) →
      getCopyLoop fd (alloc.map Int.ofNat ++ pad) cs.flatten.length
        = some cs.flatten := by
  intro cs
  induction cs with
  | nil =>
    intro alloc fd pad hlen _ _ _
    have : alloc = [] := List.length_eq_zero.mp (by rw [hlen]; rfl)
    subst this
    simp only [List.flatten_nil, List.length_nil, List.map_nil, List.nil_append]
    exact getCopyLoop_zero fd pad
  | cons c cs' ih =>
    intro alloc fd pad hlen hmem hshape hcontent
    obtain ⟨b, alloc', rfl⟩ : ∃ b alloc', alloc = b :: alloc' := by
      cases alloc with
      | nil => simp at hlen
      | cons b t => exact ⟨b, t, rfl⟩
    have hc0 := hshape 0 c rfl
    have hcne : c ≠ [] := hc0.1
    have hclen : c.length ≤ BLOCK_SIZE := hc0.2.1
    have hblt : b < TOTAL_BLOCKS := hmem b (List.mem_cons_self _ _)
    have hread : blockRead fd b c.length = c := hcontent 0 b c rfl rfl
    have hcpos : 1 ≤ c.length := by
      cases c
      · exact absurd rfl hcne
      · simp
    have hflat : (c :: cs').flatten.length = c.length + cs'.flatten.length := by
      simp [List.flatten_cons]
    have harith : min (c.length + cs'.flatten.length) BLOCK_SIZE = c.length
        ∧ c.length + cs'.flatten.length - BLOCK_SIZE = cs'.flatten.length := by
      cases cs' with
      | nil =>
        simp only [List.flatten_nil, List.length_nil, Nat.add_zero]
        simp only [BLOCK_SIZE] at hclen ⊢
        omega
      | cons c2 cs'' =>
        have h2048 : c.length = BLOCK_SIZE := hc0.2.2 (by simp)
        simp only [h2048]
        simp only [BLOCK_SIZE]
        omega
    obtain ⟨r, hr⟩ : ∃ r, (c :: cs').flatten.length = r + 1 := by
      refine ⟨(c :: cs').flatten.length - 1, ?_⟩
      rw [hflat]; omega
    have hflatten_cons : (c :: cs').flatten = c ++ cs'.flatten := by
      simp [List.flatten_cons]
    rw [hr, List.map_cons, List.cons_append]
    simp only [getCopyLoop]
    have hcond : ¬ ((Int.ofNat b) < 0 ∨ (TOTAL_BLOCKS : Int) ≤ (Int.ofNat b)) := by
      push_neg
      constructor
      · exact Int.ofNat_nonneg b
      · exact Int.ofNat_lt.mpr hblt
    rw [if_neg hcond]
    have hrec : getCopyLoop fd (alloc'.map Int.ofNat ++ pad) (r + 1 - BLOCK_SIZE)
        = some cs'.flatten := by
      have hsub : r + 1 - BLOCK_SIZE = cs'.flatten.length := by
        rw [← hr, hflat]
        exact harith.2
      rw [hsub]
      apply ih alloc' fd pad
      · simpa using hlen
      · intro b' hb'
        exact hmem b' (List.mem_cons_of_mem _ hb')
      · intro j cj hcj
        exact hshape (j + 1) cj hcj
      · intro j b' cj hb' hcj
        exact hcontent (j + 1) b' cj hb' hcj
    rw [hrec]
    have hmin : min (r + 1) BLOCK_SIZE = c.length := by
      rw [← hr, hflat]
      exact harith.1
    rw [Option.map_some']
    rw [hmin]
    have htn : (Int.ofNat b).toNat = b := rfl
    rw [htn, hread, hflatten_cons]

/-! ### Behaviour of the block-freeing loop of `delete` -/

theorem deleteCopyLoop_ok_spec :
    ∀ (bl : List Int) (us : Nat → Bool) (fd : Nat → Nat → Nat)
      (out : DelLoopOut),
      deleteCopyLoop us fd bl = .ok out →
      ∃ pre s rest, bl = pre ++ s :: rest
        ∧ (∀ b ∈ pre, 0 ≤ b ∧ b < (TOTAL_BLOCKS : Int))
        ∧ s ≤ -1
        ∧ out.newBlocks = List.replicate pre.length (0 : Int) ++ s :: rest
        ∧ ∀ b : Nat,
            ((b : Int) ∈ pre → out.us b = false ∧ out.fd b 0 = 0
              ∧ ∀ i, i ≠ 0 → out.fd b i = fd b i)
            ∧ ((b : Int) ∉ pre → out.us b = us b ∧ ∀ i, out.fd b i = fd b i) := by
  intro bl
  induction bl with
  | nil => intro us fd out h; cases h
  | cons b rest ih =>
    intro us fd out h
    simp only [deleteCopyLoop] at h
    by_cases hb1 : b ≤ -1
    · rw [if_pos hb1] at h
      injection h with hout
      subst hout
      refine ⟨[], b, rest, rfl, ?_, hb1, rfl, ?_⟩
      · intro x hx; cases hx
      · intro n
        refine ⟨?_, ?_⟩
        · intro hmem; cases hmem
        · intro _; exact ⟨rfl, fun _ => rfl⟩
    · rw [if_neg hb1] at h
      by_cases hb2 : (TOTAL_BLOCKS : Int) ≤ b
      · rw [if_pos hb2] at h; cases h
      · rw [if_neg hb2] at h
        have hb0 : (0 : Int) ≤ b := by omega
        have hcast : ((b.toNat : Nat) : Int) = b := Int.toNat_of_nonneg hb0
        cases hrec : deleteCopyLoop (updFn us b.toNat false)
            (fun blk i => if blk = b.toNat ∧ i = 0 then 0 else fd blk i)
            rest with
        | oobList => simp only [hrec] at h; cases h
        | oobBlock => simp only [hrec] at h; cases h
        | ok out' =>
          simp only [hrec] at h
          injection h with hout
          subst hout
          obtain ⟨pre', s, rest', hbl, hpre', hs, hnew, hstate⟩ :=
            ih _ _ _ hrec
          refine ⟨b :: pre', s, rest', by rw [hbl]; rfl, ?_, hs, ?_, ?_⟩
          · intro x hx
            rcases List.mem_cons.mp hx with rfl | hx'
            · exact ⟨hb0, by omega⟩
            · exact hpre' x hx'
          · simp only [List.length_cons, List.replicate_succ, List.cons_append]
            rw [hnew]
          · intro n
            constructor
            · intro hmem
              rcases List.mem_cons.mp hmem with heq | hmem'
              · -- n's cast equals b, so n = b.toNat
                have hn : n = b.toNat := by
                  have := congrArg Int.toNat heq
                  simpa using this
                subst hn
                by_cases hmem'' : ((b.toNat : Nat) : Int) ∈ pre'
                · have h1 := (hstate b.toNat).1 hmem''
                  refine ⟨h1.1, h1.2.1, fun i hi => ?_⟩
                  rw [h1.2.2 i hi]
                  simp [hi]
                · have h1 := (hstate b.toNat).2 hmem''
                  refine ⟨?_, ?_, fun i hi => ?_⟩
                  · rw [h1.1]; simp [updFn]
                  · rw [h1.2 0]; simp
                  · rw [h1.2 i]; simp [hi]
              · by_cases hnb : n = b.toNat
                · subst hnb
                  have h1 := (hstate b.toNat).1 hmem'
                  refine ⟨h1.1, h1.2.1, fun i hi => ?_⟩
                  rw [h1.2.2 i hi]
                  simp [hi]
                · have h1 := (hstate n).1 hmem'
                  refine ⟨h1.1, ?_, fun i hi => ?_⟩
                  · rw [h1.2.1]
                  · rw [h1.2.2 i hi]
                    have : ¬ (n = b.toNat ∧ i = 0) := fun hc => hnb hc.1
                    simp [this]
            · intro hnmem
              have hne : ((n : Nat) : Int) ≠ b := fun hc =>
                hnmem (hc ▸ List.mem_cons_self _ _)
              have hnmem' : ((n : Nat) : Int) ∉ pre' := fun hc =>
                hnmem (List.mem_cons_of_mem _ hc)
              have hnb : n ≠ b.toNat := fun hc => by
                subst hc
                exact hne hcast
              have h1 := (hstate n).2 hnmem'
              refine ⟨?_, fun i => ?_⟩
              · rw [h1.1]; simp [updFn, hnb]
              · rw [h1.2 i]
                have : ¬ (n = b.toNat ∧ i = 0) := fun hc => hnb hc.1
                simp [this]

theorem deleteCopyLoop_completes :
    ∀ (pre : List Int) (us : Nat → Bool) (fd : Nat → Nat → Nat)
      (s : Int) (rest : List Int),
      (∀ b ∈ pre, 0 ≤ b ∧ b < (TOTAL_BLOCKS : Int)) → s ≤ -1 →
      ∃ out, deleteCopyLoop us fd (pre ++ s :: rest) = .ok out := by
  intro pre
  induction pre with
  | nil =>
    intro us fd s rest _ hs
    exact ⟨⟨s :: rest, us, fd⟩, by simp only [List.nil_append, deleteCopyLoop, if_pos hs]⟩
  | cons b pre' ih =>
    intro us fd s rest hpre hs
    have hb := hpre b (List.mem_cons_self _ _)
    obtain ⟨out', hrec⟩ := ih (updFn us b.toNat false)
      (fun blk i => if blk = b.toNat ∧ i = 0 then 0 else fd blk i) s rest
      (fun x hx => hpre x (List.mem_cons_of_mem _ hx)) hs
    refine ⟨⟨(0 : Int) :: out'.newBlocks, out'.us, out'.fd⟩, ?_⟩
    simp only [List.cons_append, deleteCopyLoop]
    rw [if_neg (by omega), if_neg (by omega)]
    have hrec' : deleteCopyLoop (updFn us b.toNat false)
        (fun blk i => if blk = b.toNat ∧ i = 0 then 0 else fd blk i)
        (pre'.append (s :: rest)) = DelLoopRes.ok out' := hrec
    rw [hrec']

theorem deleteCopyLoop_no_sentinel :
    ∀ (bl : List Int) (us : Nat → Bool) (fd : Nat → Nat → Nat),
      (∀ b ∈ bl, 0 ≤ b ∧ b < (TOTAL_BLOCKS : Int)) →
      deleteCopyLoop us fd bl = .oobList := by
  intro bl
  induction bl with
  | nil => intro us fd _; rfl
  | cons b rest ih =>
    intro us fd hbl
    have hb := hbl b (List.mem_cons_self _ _)
    simp only [deleteCopyLoop]
    rw [if_neg (by omega), if_neg (by omega)]
    rw [ih _ _ (fun x hx => hbl x (List.mem_cons_of_mem _ hx))]

/-! ### Assembled behaviour of `put` and `delete` -/

theorem chunks_le_freeCount (bytes : List Nat) (us : Nat → Bool)
    (hsize : bytes.length ≤ MAX_FILE_SIZE)
    (havail : bytes.length ≤ disk_availability us) :
    (chunks bytes).length ≤ freeCount us := by
  rw [chunks_length bytes hsize]
  rw [disk_availability_eq_freeCount] at havail
  simp only [BLOCK_SIZE] at havail ⊢
  omega

theorem put_ok_build (st : FSState) (name : List Char) (bytes : List Nat)
    (now : Nat) (idx : Nat)
    (hname : validName name = true)
    (hsize : bytes.length ≤ MAX_FILE_SIZE)
    (havail : bytes.length ≤ disk_availability st.used_space)
    (hslot : get_new_file_entry st.directory = some idx) :
    ∃ us' fd' alloc,
      putCopyLoop none 0 st.used_space st.file_data (chunks bytes)
        = .ok us' fd' alloc
      ∧ PutLoopSpec st.used_space st.file_data (chunks bytes) us' fd' alloc
      ∧ put st name bytes none now = .ok
          { directory := updFn st.directory idx
              (putInode name bytes.length now alloc)
            used_space := us', file_data := fd' } := by
  obtain ⟨us', fd', alloc, hloop, hspec⟩ :=
    putCopyLoop_ok_total (chunks bytes) st.used_space st.file_data 0
      (chunks_le_freeCount bytes st.used_space hsize havail)
  refine ⟨us', fd', alloc, hloop, hspec, ?_⟩
  have hlen255 : name.length ≤ MAX_FILE_NAME := by
    unfold validName at hname
    simp only [Bool.and_eq_true, decide_eq_true_eq] at hname
    simp only [MAX_FILE_NAME]
    exact hname.1.2
  have h1 : ¬ (name.length > MAX_FILE_NAME) := by omega
  have h2 : ¬ (validName name = false) := by simp [hname]
  have h3 : ¬ (bytes.length > MAX_FILE_SIZE) := by omega
  have h4 : ¬ (bytes.length > disk_availability st.used_space) := by omega
  simp only [put, if_neg h1, if_neg h2, if_neg h3, if_neg h4, hslot, hloop]

theorem put_err_state (st : FSState) (name : List Char) (bytes : List Nat)
    (now : Nat) (e : PutError) (st' : FSState)
    (h : put st name bytes none now = .err e st') : st' = st := by
  unfold put at h
  split at h
  · injection h with he hst; exact hst.symm
  · split at h
    · injection h with he hst; exact hst.symm
    · split at h
      · injection h with he hst; exact hst.symm
      · split at h
        · injection h with he hst; exact hst.symm
        · split at h
          · injection h with he hst; exact hst.symm
          · split at h
            · cases h
            · next us' fd' alloc heq =>
              exact absurd heq (putCopyLoop_none_no_readErr _ _ _ _ _ _ _)
            · cases h

theorem put_ok_inv (st : FSState) (name : List Char) (bytes : List Nat)
    (now : Nat) (st' : FSState)
    (h : put st name bytes none now = .ok st') :
    validName name = true
    ∧ bytes.length ≤ MAX_FILE_SIZE
    ∧ bytes.length ≤ disk_availability st.used_space
    ∧ ∃ idx us' fd' alloc,
        get_new_file_entry st.directory = some idx
        ∧ putCopyLoop none 0 st.used_space st.file_data (chunks bytes)
            = .ok us' fd' alloc
        ∧ st' = { directory :=
                    updFn st.directory idx (putInode name bytes.length now alloc)
                  used_space := us', file_data := fd' } := by
  unfold put at h
  by_cases h1 : name.length > MAX_FILE_NAME
  · rw [if_pos h1] at h; cases h
  rw [if_neg h1] at h
  by_cases h2 : validName name = false
  · rw [if_pos h2] at h; cases h
  rw [if_neg h2] at h
  by_cases h3 : bytes.length > MAX_FILE_SIZE
  · rw [if_pos h3] at h; cases h
  rw [if_neg h3] at h
  by_cases h4 : bytes.length > disk_availability st.used_space
  · rw [if_pos h4] at h; cases h
  rw [if_neg h4] at h
  cases hslot : get_new_file_entry st.directory with
  | none => simp only [hslot] at h; cases h
  | some idx =>
    simp only [hslot] at h
    cases hloop : putCopyLoop none 0 st.used_space st.file_data (chunks bytes) with
    | ub => simp only [hloop] at h; cases h
    | readErr us' fd' alloc => simp only [hloop] at h; cases h
    | ok us' fd' alloc =>
      simp only [hloop] at h
      injection h with hst
      have hval : validName name = true := by
        cases hv : validName name
        · exact absurd hv h2
        · rfl
      exact ⟨hval, by omega, by omega, idx, us', fd', alloc,
        rfl, rfl, hst.symm⟩

theorem delete_ok_inv (st : FSState) (name : List Char) (st' : FSState)
    (h : delete st name = .ok st') :
    ∃ idx out, find_file_first st name = some idx
      ∧ deleteCopyLoop st.used_space st.file_data
          (st.directory idx).blocks = .ok out
      ∧ st' = { directory :=
                  updFn st.directory idx (freedInode out.newBlocks)
                used_space := out.us, file_data := out.fd } := by
  unfold delete at h
  split at h
  · cases h
  · next idx hidx =>
    split at h
    · cases h
    · cases h
    · next out hout =>
      injection h with hst
      exact ⟨idx, out, hidx, hout, hst.symm⟩

/-! ### The space-accounting invariant -/

/-- The block indices an inode owns: the prefix of its `blocks` array
before the first sentinel — exactly the entries `delete`'s loop visits
(`while (block_num > -1)`). -/
def ownedBlocks (e : Inode) : List Int :=
  e.blocks.takeWhile (fun b => decide (-1 < b))

/-- How many references entry `e` holds to block `b` (unused slots hold
none: their block lists are dead storage). -/
def entryRefs (e : Inode) (b : Nat) : Nat :=
  if e.used then (ownedBlocks e).count ((b : Int)) else 0

/-- Total number of references to block `b` over the whole directory. -/
def refCount (dir : Nat → Inode) (b : Nat) : Nat :=
  ((List.range DIRECTORY_SIZE).map (fun i => entryRefs (dir i) b)).sum

/-- The invariant claimed by the spec: every InUse block is referenced by
exactly one used entry's block list and vice versa, and free bytes plus
InUse bytes exhaust the disk. -/
def ClaimInv (st : FSState) : Prop :=
  (∀ b, b < TOTAL_BLOCKS →
    (st.used_space b = true ↔ refCount st.directory b = 1)
    ∧ (st.used_space b = false → refCount st.directory b = 0))
  ∧ disk_availability st.used_space + usedBlocksBytes st.used_space
      = TOTAL_BLOCKS * BLOCK_SIZE

/-- Auxiliary well-formedness facts every reachable state satisfies:
unused slots have an empty stored name, every `blocks` array has its full
48 entries, and used entries own only valid pool indices. -/
def WF (st : FSState) : Prop :=
  (∀ i, i < DIRECTORY_SIZE → (st.directory i).used = false →
    (st.directory i).file_name = [])
  ∧ (∀ i, i < DIRECTORY_SIZE →
      (st.directory i).blocks.length = MAX_FILE_BLOCKS)
  ∧ (∀ i, i < DIRECTORY_SIZE → (st.directory i).used = true →
      ∀ b ∈ ownedBlocks (st.directory i), 0 ≤ b ∧ b < (TOTAL_BLOCKS : Int))

/-- The inductive strengthening of `ClaimInv`. -/
def InvFull (st : FSState) : Prop := ClaimInv st ∧ WF st

/-- One completed engine operation: a `put` whose source reads all succeed
(any outcome), or a `delete` (success or NotFound).  `name ≠ []` for
`delete` because the shell tokenizer never yields an empty token (and a
missing argument would crash strcmp before touching engine state). -/
inductive Step : FSState → FSState → Prop
  | putOk (st st' : FSState) (name : List Char) (bytes : List Nat)
      (now : Nat) : put st name bytes none now = .ok st' → Step st st'
  | putErr (st st' : FSState) (name : List Char) (bytes : List Nat)
      (now : Nat) (e : PutError) :
      put st name bytes none now = .err e st' → Step st st'
  | delOk (st st' : FSState) (name : List Char) :
      name ≠ [] → delete st name = .ok st' → Step st st'
  | delNotFound (st : FSState) (name : List Char) :
      name ≠ [] → delete st name = .notFound → Step st st

/-- States reachable from the zero-initialised start state by completed
put/delete operations with no source read errors. -/
def Reachable (st : FSState) : Prop :=
  Relation.ReflTransGen Step emptyState st

theorem get_new_file_entry_spec (dir : Nat → Inode) (idx : Nat) :
    get_new_file_entry dir = some idx ↔
      idx < DIRECTORY_SIZE ∧ (dir idx).used = false
        ∧ ∀ j, j < idx → (dir j).used = true := by
  unfold get_new_file_entry
  rw [scanFirst_eq_some_iff]
  simp only [Bool.not_eq_true', Bool.not_eq_false']

theorem refCount_empty (b : Nat) : refCount emptyState.directory b = 0 := by
  unfold refCount
  apply List.sum_eq_zero
  intro x hx
  obtain ⟨i, _, rfl⟩ := List.mem_map.mp hx
  simp [entryRefs, emptyState, initInode]

theorem claimInv_empty : ClaimInv emptyState := by
  constructor
  · intro b _
    refine ⟨⟨?_, ?_⟩, ?_⟩
    · intro h
      simp [emptyState] at h
    · intro h
      rw [refCount_empty] at h
      cases h
    · intro _
      exact refCount_empty b
  · exact accounting _

theorem wf_empty : WF emptyState := by
  refine ⟨?_, ?_, ?_⟩
  · intro i _ _; rfl
  · intro i _
    simp [emptyState, initInode]
  · intro i _ hused
    simp [emptyState, initInode] at hused

theorem takeWhile_append_replicate (p : Int → Bool) (l : List Int) (m : Nat)
    (hl : ∀ b ∈ l, p b = true) (hm : p (-1) = false) :
    (l ++ List.replicate m (-1)).takeWhile p = l := by
  induction l with
  | nil =>
    cases m with
    | zero => rfl
    | succ m =>
      simp [List.replicate_succ, List.takeWhile_cons, hm]
  | cons a t ih =>
    have ha := hl a (List.mem_cons_self _ _)
    simp [List.takeWhile_cons, ha,
      ih (fun b hb => hl b (List.mem_cons_of_mem _ hb))]

theorem takeWhile_prefix_stop (p : Int → Bool) :
    ∀ (pre : List Int) (s : Int) (rest : List Int),
      (∀ b ∈ pre, p b = true) → p s = false →
      (pre ++ s :: rest).takeWhile p = pre := by
  intro pre
  induction pre with
  | nil =>
    intro s rest _ hps
    simp [List.takeWhile_cons, hps]
  | cons a t ih =>
    intro s rest hpre hps
    have ha := hpre a (List.mem_cons_self _ _)
    simp [List.takeWhile_cons, ha,
      ih s rest (fun b hb => hpre b (List.mem_cons_of_mem _ hb)) hps]

theorem count_map_ofNat (alloc : List Nat) (b : Nat) :
    (alloc.map Int.ofNat).count ((b : Int)) = alloc.count b := by
  induction alloc with
  | nil => rfl
  | cons a t ih =>
    rw [List.map_cons, List.count_cons, List.count_cons, ih]
    congr 1
    by_cases hab : a = b
    · subst hab
      have : Int.ofNat a = (a : Int) := rfl
      simp [this]
    · have h1 : ¬ (Int.ofNat a = (b : Int)) := by
        intro hc
        apply hab
        have hc' : Int.ofNat a = Int.ofNat b := hc
        exact Int.ofNat.inj hc'
      simp [hab, h1]

theorem refCount_updFn (dir : Nat → Inode) (idx : Nat) (e : Inode) (b : Nat)
    (hidx : idx < DIRECTORY_SIZE) :
    refCount (updFn dir idx e) b + entryRefs (dir idx) b
      = refCount dir b + entryRefs e b := by
  unfold refCount
  have hagree : ∀ j, j ≠ idx →
      entryRefs (updFn dir idx e j) b = entryRefs (dir j) b := by
    intro j hj
    simp [updFn, hj]
  have hmain := sum_map_update (fun i => entryRefs (dir i) b)
    (fun i => entryRefs (updFn dir idx e i) b)
    (List.range DIRECTORY_SIZE) (List.nodup_range DIRECTORY_SIZE)
    idx (List.mem_range.mpr hidx) hagree
  have hat : entryRefs (updFn dir idx e idx) b = entryRefs e b := by
    simp [updFn]
  rw [show (fun i => entryRefs (updFn dir idx e i) b) idx = entryRefs e b
    from hat] at hmain
  rw [show (fun i => entryRefs (dir i) b) idx = entryRefs (dir idx) b
    from rfl] at hmain
  omega

theorem ownedBlocks_putInode (name : List Char) (size now : Nat)
    (alloc : List Nat) :
    ownedBlocks (putInode name size now alloc) = alloc.map Int.ofNat := by
  unfold ownedBlocks putInode
  apply takeWhile_append_replicate
  · intro b hb
    obtain ⟨a, _, rfl⟩ := List.mem_map.mp hb
    simp
    omega
  · simp

theorem entryRefs_putInode (name : List Char) (size now : Nat)
    (alloc : List Nat) (b : Nat) :
    entryRefs (putInode name size now alloc) b = alloc.count b := by
  have h1 : entryRefs (putInode name size now alloc) b
      = (ownedBlocks (putInode name size now alloc)).count ((b : Int)) := rfl
  rw [h1, ownedBlocks_putInode, count_map_ofNat]

theorem entryRefs_freedInode (bs : List Int) (b : Nat) :
    entryRefs (freedInode bs) b = 0 := rfl

theorem invFull_put_ok (st st' : FSState) (name : List Char)
    (bytes : List Nat) (now : Nat) (hinv : InvFull st)
    (h : put st name bytes none now = .ok st') : InvFull st' := by
  obtain ⟨hclaim, hwf⟩ := hinv
  obtain ⟨hval, hsize, havail, idx, us', fd', alloc, hslot, hloop, hst'⟩ :=
    put_ok_inv st name bytes now st' h
  obtain ⟨us0, fd0, alloc0, hloop0, hspec⟩ :=
    putCopyLoop_ok_total (chunks bytes) st.used_space st.file_data 0
      (chunks_le_freeCount bytes st.used_space hsize havail)
  rw [hloop] at hloop0
  injection hloop0 with hus hfd halloc
  subst hus; subst hfd; subst halloc
  have hidxspec := (get_new_file_entry_spec st.directory idx).mp hslot
  have hidx : idx < DIRECTORY_SIZE := hidxspec.1
  have hunused : (st.directory idx).used = false := hidxspec.2.1
  have hklen : alloc.length ≤ MAX_FILE_BLOCKS := by
    rw [hspec.len, chunks_length bytes hsize]
    have hsize' : bytes.length ≤ 98304 := hsize
    show (bytes.length + (2048 - 1)) / 2048 ≤ 48
    omega
  have hcount1 : ∀ b ∈ alloc, alloc.count b = 1 := by
    intro b hb
    exact List.count_eq_one_of_mem hspec.nodup hb
  have hdir' : st'.directory
      = updFn st.directory idx (putInode name bytes.length now alloc) := by
    rw [hst']
  have hus2 : st'.used_space = us' := by rw [hst']
  have hrefs : ∀ b : Nat,
      refCount st'.directory b = refCount st.directory b + alloc.count b := by
    intro b
    have h0 : entryRefs (st.directory idx) b = 0 := by
      simp [entryRefs, hunused]
    have hupd := refCount_updFn st.directory idx
      (putInode name bytes.length now alloc) b hidx
    rw [h0, entryRefs_putInode] at hupd
    rw [hdir']
    omega
  constructor
  · constructor
    · intro b hb
      rw [hrefs b]
      have hus' : st'.used_space b = us' b := by rw [hus2]
      by_cases hmem : b ∈ alloc
      · have h1 : us' b = true := hspec.usIn b hmem
        have h2 : st.used_space b = false := (hspec.mem b hmem).2
        have h3 : refCount st.directory b = 0 := (hclaim.1 b hb).2 h2
        rw [hus', h1, h3, hcount1 b hmem]
        exact ⟨⟨fun _ => rfl, fun _ => rfl⟩, fun hc => by cases hc⟩
      · have h1 : us' b = st.used_space b := hspec.usOut b hmem
        have h2 : alloc.count b = 0 := List.count_eq_zero_of_not_mem hmem
        rw [hus', h1, h2, Nat.add_zero]
        exact hclaim.1 b hb
    · exact accounting _
  · refine ⟨?_, ?_, ?_⟩
    · intro i hi hiu
      rw [hdir'] at hiu ⊢
      by_cases hieq : i = idx
      · subst hieq
        rw [show updFn st.directory i (putInode name bytes.length now alloc) i
          = putInode name bytes.length now alloc by simp [updFn]] at hiu
        simp [putInode] at hiu
      · simp only [updFn, if_neg hieq] at hiu ⊢
        exact hwf.1 i hi hiu
    · intro i hi
      rw [hdir']
      by_cases hieq : i = idx
      · subst hieq
        rw [show updFn st.directory i (putInode name bytes.length now alloc) i
          = putInode name bytes.length now alloc by simp [updFn]]
        simp only [putInode]
        simp only [List.length_append, List.length_map, List.length_replicate]
        omega
      · simp only [updFn, if_neg hieq]
        exact hwf.2.1 i hi
    · intro i hi hiu b hb
      rw [hdir'] at hiu hb
      by_cases hieq : i = idx
      · subst hieq
        rw [show updFn st.directory i (putInode name bytes.length now alloc) i
          = putInode name bytes.length now alloc by simp [updFn]] at hb
        rw [ownedBlocks_putInode] at hb
        obtain ⟨a, ha, rfl⟩ := List.mem_map.mp hb
        have := (hspec.mem a ha).1
        constructor
        · exact Int.ofNat_nonneg a
        · exact Int.ofNat_lt.mpr this
      · simp only [updFn, if_neg hieq] at hiu hb
        exact hwf.2.2 i hi hiu b hb

theorem invFull_delete_ok (st st' : FSState) (name : List Char)
    (hname : name ≠ []) (hinv : InvFull st)
    (h : delete st name = .ok st') : InvFull st' := by
  obtain ⟨hclaim, hwf⟩ := hinv
  obtain ⟨idx, out, hfind, hloopok, hst'⟩ := delete_ok_inv st name st' h
  have hfirst := (scanFirst_eq_some_iff
    (fun i => (st.directory i).file_name == name) DIRECTORY_SIZE idx).mp hfind
  have hidx : idx < DIRECTORY_SIZE := hfirst.1
  have hmatch : (st.directory idx).file_name = name := by
    have := hfirst.2.1
    simpa using this
  have hused : (st.directory idx).used = true := by
    cases hu : (st.directory idx).used
    · exact absurd (hmatch ▸ hwf.1 idx hidx hu) hname
    · rfl
  obtain ⟨pre, s, rest, hbl, hpre, hs, hnew, hstate⟩ :=
    deleteCopyLoop_ok_spec _ _ _ _ hloopok
  have howned : ownedBlocks (st.directory idx) = pre := by
    unfold ownedBlocks
    rw [hbl]
    apply takeWhile_prefix_stop
    · intro b hb
      have := (hpre b hb).1
      simp
      omega
    · simp
      omega
  have hdir' : st'.directory
      = updFn st.directory idx (freedInode out.newBlocks) := by
    rw [hst']
  have hus2 : st'.used_space = out.us := by rw [hst']
  have hrefs : ∀ b : Nat,
      refCount st'.directory b + entryRefs (st.directory idx) b
        = refCount st.directory b := by
    intro b
    have hupd := refCount_updFn st.directory idx
      (freedInode out.newBlocks) b hidx
    rw [entryRefs_freedInode] at hupd
    rw [hdir']
    omega
  have hentry : ∀ b : Nat,
      entryRefs (st.directory idx) b = pre.count ((b : Int)) := by
    intro b
    unfold entryRefs
    rw [if_pos hused, howned]
  constructor
  · constructor
    · intro b hb
      have hus' : st'.used_space b = out.us b := by rw [hst']
      by_cases hmem : ((b : Int)) ∈ pre
      · have husb : out.us b = false := ((hstate b).1 hmem).1
        have hcnt : pre.count ((b : Int)) ≠ 0 :=
          fun h0 => (List.count_eq_zero.mp h0) hmem
        have hle : entryRefs (st.directory idx) b ≤ refCount st.directory b := by
          unfold refCount
          exact single_le_sum_map (fun i => entryRefs (st.directory i) b)
            (List.range DIRECTORY_SIZE) idx (List.mem_range.mpr hidx)
        have husold : st.used_space b = true := by
          cases hu : st.used_space b
          · exfalso
            have h0 := (hclaim.1 b hb).2 hu
            rw [hentry b] at hle
            omega
          · rfl
        have hrc1 : refCount st.directory b = 1 := (hclaim.1 b hb).1.mp husold
        have hmain := hrefs b
        rw [hentry b] at hmain hle
        rw [hus', husb]
        refine ⟨⟨?_, ?_⟩, ?_⟩
        · intro hc; cases hc
        · intro hc; exfalso; omega
        · intro _; omega
      · have husb : out.us b = st.used_space b := ((hstate b).2 hmem).1
        have hcnt0 : pre.count ((b : Int)) = 0 :=
          List.count_eq_zero_of_not_mem hmem
        have hmain := hrefs b
        rw [hentry b, hcnt0] at hmain
        have hrceq : refCount st'.directory b = refCount st.directory b := by
          omega
        rw [hus', husb, hrceq]
        exact hclaim.1 b hb
    · exact accounting _
  · refine ⟨?_, ?_, ?_⟩
    · intro i hi hiu
      rw [hdir'] at hiu ⊢
      by_cases hieq : i = idx
      · subst hieq; simp [updFn, freedInode]
      · simp only [updFn, if_neg hieq] at hiu ⊢
        exact hwf.1 i hi hiu
    · intro i hi
      rw [hdir']
      by_cases hieq : i = idx
      · subst hieq
        rw [show updFn st.directory i (freedInode out.newBlocks) i
          = freedInode out.newBlocks by simp [updFn]]
        simp only [freedInode]
        have hlenold := hwf.2.1 i hi
        rw [hbl] at hlenold
        rw [hnew]
        simp only [List.length_append, List.length_replicate,
          List.length_cons] at hlenold ⊢
        omega
      · simp only [updFn, if_neg hieq]
        exact hwf.2.1 i hi
    · intro i hi hiu b hb
      rw [hdir'] at hiu hb
      by_cases hieq : i = idx
      · subst hieq
        rw [show updFn st.directory i (freedInode out.newBlocks) i
          = freedInode out.newBlocks by simp [updFn]] at hiu
        simp [freedInode] at hiu
      · simp only [updFn, if_neg hieq] at hiu hb
        exact hwf.2.2 i hi hiu b hb

theorem invFull_step (st st' : FSState) (h : Step st st')
    (hinv : InvFull st) : InvFull st' := by
  cases h with
  | putOk _ name bytes now hput =>
    exact invFull_put_ok _ _ name bytes now hinv hput
  | putErr _ name bytes now e hput =>
    rw [put_err_state _ name bytes now e _ hput]
    exact hinv
  | delOk _ name hname hdel =>
    exact invFull_delete_ok _ _ name hname hinv hdel
  | delNotFound _ name _ =>
    exact hinv

theorem reachable_invFull (st : FSState) (h : Reachable st) : InvFull st := by
  unfold Reachable at h
  induction h with
  | refl => exact ⟨claimInv_empty, wf_empty⟩
  | tail hsteps hstep ih => exact invFull_step _ _ hstep ih

/-! ### Claim theorems -/

/-- A directory state holding two used entries with the same name "a"
(slots 0 and 1, one byte each, stored in blocks 5 and 7), as the
duplicate-name behaviour of `put` can create. -/
def dupState : FSState :=
  { directory := fun i =>
      if i = 0 then
        { used := true, file_name := ['a'], size := 1, time_created := 0
          blocks := (5 : Int) :: List.replicate 47 (-1) }
      else if i = 1 then
        { used := true, file_name := ['a'], size := 1, time_created := 0
          blocks := (7 : Int) :: List.replicate 47 (-1) }
      else initInode
    used_space := fun b => b == 5 || b == 7
    file_data := fun b i =>
      if b = 5 ∧ i = 0 then 11 else if b = 7 ∧ i = 0 then 22 else 0 }

theorem find_file_last_mem (st : FSState) (name : List Char) (idx : Nat)
    (hf : find_file_last st name = some idx) :
    idx < DIRECTORY_SIZE ∧ (st.directory idx).file_name = name := by
  have hspec := (scanLast_eq_some_iff
    (fun j => (st.directory j).file_name == name) DIRECTORY_SIZE idx).mp hf
  exact ⟨hspec.1, by simpa using hspec.2.1⟩

/-- Claim C5 (amended): name resolution is case-sensitive exact string
comparison that never consults the `used` flag, but the two operations
disagree on ties: `get`'s lookup loop has no break and resolves to the
HIGHEST-index slot whose stored name matches, while `delete` breaks and
resolves to the lowest; both fail with NotFound exactly when no slot's
stored name matches. -/
theorem c5_name_resolution : ∀ (st : FSState) (name : List Char),
    (∀ i, find_file_last st name = some i ↔
      (i < DIRECTORY_SIZE ∧ (st.directory i).file_name = name
        ∧ ∀ j, j < DIRECTORY_SIZE → (st.directory j).file_name = name → j ≤ i))
    ∧ (∀ i, find_file_first st name = some i ↔
      (i < DIRECTORY_SIZE ∧ (st.directory i).file_name = name
        ∧ ∀ j, j < i → (st.directory j).file_name ≠ name))
    ∧ (get st name = .notFound ↔
        ∀ j, j < DIRECTORY_SIZE → (st.directory j).file_name ≠ name)
    ∧ (delete st name = .notFound ↔
        ∀ j, j < DIRECTORY_SIZE → (st.directory j).file_name ≠ name) := by
  intro st name
  have hnone : find_file_last st name = none ↔
      ∀ j, j < DIRECTORY_SIZE → (st.directory j).file_name ≠ name := by
    unfold find_file_last
    rw [scanLast_eq_none_iff]
    constructor
    · intro h j hj hmatch
      have := h j hj
      rw [show ((st.directory j).file_name == name) = true
        by simpa using hmatch] at this
      cases this
    · intro h j hj
      cases hm : ((st.directory j).file_name == name)
      · rfl
      · exact absurd (by simpa using hm) (h j hj)
  have hnonefst : find_file_first st name = none ↔
      ∀ j, j < DIRECTORY_SIZE → (st.directory j).file_name ≠ name := by
    unfold find_file_first
    rw [scanFirst_eq_none_iff]
    constructor
    · intro h j hj hmatch
      have := h j hj
      rw [show ((st.directory j).file_name == name) = true
        by simpa using hmatch] at this
      cases this
    · intro h j hj
      cases hm : ((st.directory j).file_name == name)
      · rfl
      · exact absurd (by simpa using hm) (h j hj)
  refine ⟨?_, ?_, ?_, ?_⟩
  · intro i
    unfold find_file_last
    rw [scanLast_eq_some_iff]
    constructor
    · rintro ⟨h1, h2, h3⟩
      refine ⟨h1, by simpa using h2, fun j hj hmatch => ?_⟩
      by_contra hlt
      have := h3 j (by omega) hj
      rw [show ((st.directory j).file_name == name) = true
        by simpa using hmatch] at this
      cases this
    · rintro ⟨h1, h2, h3⟩
      refine ⟨h1, by simpa using h2, fun j hij hjn => ?_⟩
      cases hm : ((st.directory j).file_name == name)
      · rfl
      · have heq : (st.directory j).file_name = name := by simpa using hm
        have := h3 j hjn heq
        omega
  · intro i
    unfold find_file_first
    rw [scanFirst_eq_some_iff]
    constructor
    · rintro ⟨h1, h2, h3⟩
      refine ⟨h1, by simpa using h2, fun j hj hmatch => ?_⟩
      have := h3 j hj
      rw [show ((st.directory j).file_name == name) = true
        by simpa using hmatch] at this
      cases this
    · rintro ⟨h1, h2, h3⟩
      refine ⟨h1, by simpa using h2, fun j hj => ?_⟩
      cases hm : ((st.directory j).file_name == name)
      · rfl
      · exact absurd (by simpa using hm) (h3 j hj)
  · cases hf : find_file_last st name with
    | none =>
      have hlhs : get st name = .notFound := by
        unfold get
        rw [hf]
      rw [hlhs]
      simp only [true_iff]
      exact fun j hj => (hnone.mp hf) j hj
    | some idx =>
      have hlhs : get st name ≠ .notFound := by
        cases hg : getCopyLoop st.file_data (st.directory idx).blocks
            (st.directory idx).size with
        | none => simp [get, hf, hg]
        | some bs => simp [get, hf, hg]
      constructor
      · intro hc; exact absurd hc hlhs
      · intro hall
        exfalso
        have hmem := find_file_last_mem st name idx hf
        exact hall idx hmem.1 hmem.2
  · cases hf : find_file_first st name with
    | none =>
      have hlhs : delete st name = .notFound := by
        unfold delete
        rw [hf]
      rw [hlhs]
      simp only [true_iff]
      exact fun j hj => (hnonefst.mp hf) j hj
    | some idx =>
      have hlhs : delete st name ≠ .notFound := by
        cases hg : deleteCopyLoop st.used_space st.file_data
            (st.directory idx).blocks with
        | ok out => simp [delete, hf, hg]
        | oobList => simp [delete, hf, hg]
        | oobBlock => simp [delete, hf, hg]
      constructor
      · intro hc; exact absurd hc hlhs
      · intro hall
        exfalso
        have hspec := (scanFirst_eq_some_iff
          (fun j => (st.directory j).file_name == name) DIRECTORY_SIZE idx).mp hf
        exact hall idx hspec.1 (by simpa using hspec.2.1)

/-- Claim C5 counterexample: with two used slots both named "a" (slot 0
holding byte 11 in block 5, slot 1 holding byte 22 in block 7), `get`
resolves to slot 1 — the highest matching index — and returns [22], while
the lowest-index used slot with that name is slot 0, whose content reads
back as [11].  So `get` does not resolve to the lowest-index matching
slot, refuting the claim as stated. -/
theorem c5_counterexample :
    (dupState.directory 0).used = true
    ∧ (dupState.directory 0).file_name = ['a']
    ∧ (dupState.directory 1).used = true
    ∧ (dupState.directory 1).file_name = ['a']
    ∧ find_file_first dupState ['a'] = some 0
    ∧ find_file_last dupState ['a'] = some 1
    ∧ get dupState ['a'] = .ok [22]
    ∧ getCopyLoop dupState.file_data (dupState.directory 0).blocks
        (dupState.directory 0).size = some [11] := by
  refine ⟨?_, ?_, ?_, ?_, ?_, ?_, ?_, ?_⟩ <;> decide

/-- Claim C8: from any state satisfying the accounting invariant, if the
free-space pre-check of `put` passes (the declared length fits in
`disk_availability`), the copy loop always finds a free block: `put`
never reaches the unchecked `file_data[get_free_block() = -1]` access,
modelled by the `PutOutcome.ub` outcome. -/
theorem c8_no_capacity_exhaustion (st : FSState) (name : List Char)
    (bytes : List Nat) (failAt : Option Nat) (now : Nat)
    (hinv : ClaimInv st)
    (hpre : bytes.length ≤ disk_availability st.used_space) :
    put st name bytes failAt now ≠ PutOutcome.ub := by
  intro h
  unfold put at h
  by_cases h1 : name.length > MAX_FILE_NAME
  · rw [if_pos h1] at h; cases h
  rw [if_neg h1] at h
  by_cases h2 : validName name = false
  · rw [if_pos h2] at h; cases h
  rw [if_neg h2] at h
  by_cases h3 : bytes.length > MAX_FILE_SIZE
  · rw [if_pos h3] at h; cases h
  rw [if_neg h3] at h
  by_cases h4 : bytes.length > disk_availability st.used_space
  · rw [if_pos h4] at h; cases h
  rw [if_neg h4] at h
  cases hslot : get_new_file_entry st.directory with
  | none => simp only [hslot] at h; cases h
  | some idx =>
    simp only [hslot] at h
    cases hloop : putCopyLoop failAt 0 st.used_space st.file_data
        (chunks bytes) with
    | ub =>
      exact putCopyLoop_ne_ub (chunks bytes) st.used_space st.file_data 0
        failAt (chunks_le_freeCount bytes st.used_space (by omega) hpre) hloop
    | readErr us' fd' alloc => simp only [hloop] at h; cases h
    | ok us' fd' alloc => simp only [hloop] at h; cases h

/-- Witness for C8 at a concrete input: a three-byte put from the empty
state (invariant holds, pre-check passes) is not undefined behaviour. -/
theorem c8_witness : put emptyState ['a'] [1, 2, 3] none 0 ≠ PutOutcome.ub :=
  c8_no_capacity_exhaustion emptyState ['a'] [1, 2, 3] none 0
    claimInv_empty (by decide)

/-- The declared capacity of the name field: `char file_name[255]`. -/
def fileNameFieldLen : Nat := 255

/-- The byte offsets written into `file_name` by
`memcpy(..., args[1], strlen(args[1]) + 1)`: the characters plus the
terminator. -/
def putNameWriteIndices (name : List Char) : List Nat :=
  List.range (name.length + 1)

/-- Claim C9: `put` copies the name together with its terminator
(strlen + 1 bytes) into the 255-byte `file_name` field, so every write
stays inside the field exactly when the name has at most 254 characters;
the 255-character name (all letters) passes both the length and the
charset check, yet its terminator is written at offset 255, past the end
of the field. -/
theorem c9_name_write_bounds :
    (∀ name : List Char, validName name = true →
      ((∀ i ∈ putNameWriteIndices name, i < fileNameFieldLen)
        ↔ name.length ≤ 254))
    ∧ validName (List.replicate 255 'a') = true
    ∧ 255 ∈ putNameWriteIndices (List.replicate 255 'a')
    ∧ ¬ (255 < fileNameFieldLen) := by
  refine ⟨?_, by decide, by decide, by decide⟩
  intro name _
  unfold putNameWriteIndices fileNameFieldLen
  constructor
  · intro h
    have := h name.length (List.mem_range.mpr (by omega))
    omega
  · intro h i hi
    have := List.mem_range.mp hi
    omega

/-- Witness for C9: the single-character name stays inside the field. -/
theorem c9_witness :
    (∀ i ∈ putNameWriteIndices ['a'], i < fileNameFieldLen)
      ↔ (['a'] : List Char).length ≤ 254 :=
  c9_name_write_bounds.1 ['a'] (by decide)

theorem get_after_put (st st2 : FSState) (name : List Char)
    (bytes : List Nat) (now : Nat) (idx : Nat) (us' : Nat → Bool)
    (fd' : Nat → Nat → Nat) (alloc : List Nat)
    (hsize : bytes.length ≤ MAX_FILE_SIZE)
    (hspec : PutLoopSpec st.used_space st.file_data (chunks bytes) us' fd' alloc)
    (hidxlt : idx < DIRECTORY_SIZE)
    (hfresh : ∀ i, i < DIRECTORY_SIZE → (st.directory i).file_name ≠ name)
    (hdir : st2.directory
      = updFn st.directory idx (putInode name bytes.length now alloc))
    (hfd : st2.file_data = fd') :
    get st2 name = .ok bytes := by
  have hfind : find_file_last st2 name = some idx := by
    unfold find_file_last
    rw [scanLast_eq_some_iff]
    refine ⟨hidxlt, ?_, ?_⟩
    · rw [hdir]
      simp [updFn, putInode]
    · intro j hij hjlt
      have hne : j ≠ idx := by omega
      rw [hdir]
      simp only [updFn, if_neg hne]
      simp [hfresh j hjlt]
  have hread : getCopyLoop fd'
      (alloc.map Int.ofNat
        ++ List.replicate (MAX_FILE_BLOCKS - alloc.length) (-1))
      bytes.length = some bytes := by
    have hmain := getCopyLoop_readback (chunks bytes) alloc fd'
      (List.replicate (MAX_FILE_BLOCKS - alloc.length) (-1))
      hspec.len (fun b hb => (hspec.mem b hb).1) (chunks_shape bytes hsize)
      (fun j b c hb hc => blockRead_eq_of_getD fd' st.file_data b c
        (hspec.content j b c hb hc))
    rw [chunks_flatten bytes hsize] at hmain
    exact hmain
  unfold get
  simp only [hfind]
  rw [hdir]
  rw [show updFn st.directory idx (putInode name bytes.length now alloc) idx
    = putInode name bytes.length now alloc by simp [updFn]]
  rw [show (putInode name bytes.length now alloc).blocks
    = alloc.map Int.ofNat
      ++ List.replicate (MAX_FILE_BLOCKS - alloc.length) (-1) from rfl]
  rw [show (putInode name bytes.length now alloc).size = bytes.length from rfl]
  rw [hfd, hread]

/-- Claim C1: round-trip.  From any state in which no directory slot's
stored name equals `name` (so the fresh entry is the unique match for the
subsequent lookup), a `put` of any byte sequence of length at most
MAX_FILE_SIZE that passes the free-space check succeeds, and the
following `get` of the same name streams back exactly the original byte
sequence — whether or not the length is an exact multiple of BLOCK_SIZE
(both cases are instances of the quantifier). -/
theorem c1_put_get_roundtrip (st : FSState) (name : List Char)
    (bytes : List Nat) (now : Nat)
    (hname : validName name = true)
    (hsize : bytes.length ≤ MAX_FILE_SIZE)
    (havail : bytes.length ≤ disk_availability st.used_space)
    (hslot : (get_new_file_entry st.directory).isSome = true)
    (hfresh : ∀ i, i < DIRECTORY_SIZE → (st.directory i).file_name ≠ name) :
    ∃ st', put st name bytes none now = .ok st'
      ∧ get st' name = .ok bytes := by
  obtain ⟨idx, hslot'⟩ := Option.isSome_iff_exists.mp hslot
  obtain ⟨us', fd', alloc, hloop, hspec, hput⟩ :=
    put_ok_build st name bytes now idx hname hsize havail hslot'
  have hidxlt : idx < DIRECTORY_SIZE :=
    ((get_new_file_entry_spec st.directory idx).mp hslot').1
  refine ⟨_, hput, ?_⟩
  exact get_after_put st _ name bytes now idx us' fd' alloc hsize hspec hidxlt
    hfresh rfl rfl

/-- Witness for C1: a concrete 3-byte file round-trips from the empty
state (and, via the same theorem, a 4096-byte exact-multiple file also
round-trips; the concrete hypotheses are discharged by evaluation). -/
theorem c1_witness :
    ∃ st', put emptyState ['a'] [7, 8, 9] none 0 = .ok st'
      ∧ get st' ['a'] = .ok [7, 8, 9] :=
  c1_put_get_roundtrip emptyState ['a'] [7, 8, 9] 0 (by decide) (by decide)
    (by decide) (by decide) (by decide)

/-- Claim C6: space boundary.  From any state with a free directory slot,
a valid-named put whose declared length exactly equals `free_bytes()`
succeeds, while one byte more (still within the size ceiling) fails with
InsufficientSpace — and the failure state is the original state, because
the free-space check runs before any slot or block is touched. -/
theorem c6_space_boundary (st : FSState) (name : List Char)
    (bytes1 bytes2 : List Nat) (now : Nat)
    (hname : validName name = true)
    (hslot : (get_new_file_entry st.directory).isSome = true)
    (h1len : bytes1.length = disk_availability st.used_space)
    (h1max : bytes1.length ≤ MAX_FILE_SIZE)
    (h2len : bytes2.length = disk_availability st.used_space + 1)
    (h2max : bytes2.length ≤ MAX_FILE_SIZE) :
    (∃ st', put st name bytes1 none now = .ok st')
    ∧ put st name bytes2 none now = .err .insufficientSpace st := by
  obtain ⟨idx, hslot'⟩ := Option.isSome_iff_exists.mp hslot
  constructor
  · obtain ⟨us', fd', alloc, _, _, hput⟩ :=
      put_ok_build st name bytes1 now idx hname h1max (by omega) hslot'
    exact ⟨_, hput⟩
  · have hlen255 : name.length ≤ MAX_FILE_NAME := by
      unfold validName at hname
      simp only [Bool.and_eq_true, decide_eq_true_eq] at hname
      simp only [MAX_FILE_NAME]
      exact hname.1.2
    have hc1 : ¬ (name.length > MAX_FILE_NAME) := by omega
    have hc2 : ¬ (validName name = false) := by simp [hname]
    have hc3 : ¬ (bytes2.length > MAX_FILE_SIZE) := by omega
    have hc4 : bytes2.length > disk_availability st.used_space := by omega
    simp only [put, if_neg hc1, if_neg hc2, if_neg hc3, if_pos hc4]

/-- A state with exactly one free block (block 0) and an empty directory,
used to exercise the space boundary at a size small enough to evaluate. -/
def oneFreeState : FSState :=
  { directory := fun _ => initInode
    used_space := fun b => !(b == 0)
    file_data := fun _ _ => 0 }

/-- Witness for C6: with one free block (2048 free bytes), a 2048-byte
put succeeds and a 2049-byte put fails with InsufficientSpace, leaving
the state untouched. -/
theorem c6_witness :
    (∃ st', put oneFreeState ['a'] (List.replicate 2048 0) none 0 = .ok st')
    ∧ put oneFreeState ['a'] (List.replicate 2049 0) none 0
        = .err .insufficientSpace oneFreeState :=
  c6_space_boundary oneFreeState ['a'] (List.replicate 2048 0)
    (List.replicate 2049 0) 0 (by decide) (by decide)
    (by rw [List.length_replicate]; decide)
    (by rw [List.length_replicate]; decide)
    (by rw [List.length_replicate]; decide)
    (by rw [List.length_replicate]; decide)

/-- Claim C7: `put` neither overwrites nor rejects because of an existing
entry with the same name: every successful put writes the lowest-index
unused slot and leaves all other slots untouched; consequently two puts
of the same name "a" from the empty state leave slots 0 and 1 both used
with identical names. -/
theorem c7_fresh_slot_duplicates :
    (∀ (st st' : FSState) (name : List Char) (bytes : List Nat) (now : Nat),
      put st name bytes none now = .ok st' →
      ∃ idx, get_new_file_entry st.directory = some idx
        ∧ (st.directory idx).used = false
        ∧ (∀ j, j < idx → (st.directory j).used = true)
        ∧ (st'.directory idx).used = true
        ∧ (st'.directory idx).file_name = name
        ∧ ∀ j, j ≠ idx → st'.directory j = st.directory j)
    ∧ ((outcomeState (put (outcomeState (put emptyState ['a'] [1] none 0))
          ['a'] [2] none 0)).directory 0).used = true
    ∧ ((outcomeState (put (outcomeState (put emptyState ['a'] [1] none 0))
          ['a'] [2] none 0)).directory 0).file_name = ['a']
    ∧ ((outcomeState (put (outcomeState (put emptyState ['a'] [1] none 0))
          ['a'] [2] none 0)).directory 1).used = true
    ∧ ((outcomeState (put (outcomeState (put emptyState ['a'] [1] none 0))
          ['a'] [2] none 0)).directory 1).file_name = ['a'] := by
  constructor
  · intro st st' name bytes now h
    obtain ⟨hval, hsize, havail, idx, us', fd', alloc, hslot, hloop, hst'⟩ :=
      put_ok_inv st name bytes now st' h
    have hidxspec := (get_new_file_entry_spec st.directory idx).mp hslot
    refine ⟨idx, hslot, hidxspec.2.1, hidxspec.2.2, ?_, ?_, ?_⟩
    · rw [hst']
      show (updFn st.directory idx (putInode name bytes.length now alloc) idx).used
        = true
      simp [updFn, putInode]
    · rw [hst']
      show (updFn st.directory idx (putInode name bytes.length now alloc) idx).file_name
        = name
      simp [updFn, putInode]
    · intro j hj
      rw [hst']
      show updFn st.directory idx (putInode name bytes.length now alloc) j
        = st.directory j
      simp [updFn, hj]
  · refine ⟨?_, ?_, ?_, ?_⟩ <;> decide

/-- Witness for C7's universally quantified part, at a one-byte put from
the empty state: the fresh slot is slot 0 and nothing else changes. -/
theorem c7_witness :
    ∃ idx, get_new_file_entry emptyState.directory = some idx
      ∧ (emptyState.directory idx).used = false
      ∧ (∀ j, j < idx → (emptyState.directory j).used = true)
      ∧ ((outcomeState (put emptyState ['a'] [1] none 0)).directory idx).used
          = true
      ∧ ((outcomeState (put emptyState ['a'] [1] none 0)).directory idx).file_name
          = ['a']
      ∧ ∀ j, j ≠ idx →
          (outcomeState (put emptyState ['a'] [1] none 0)).directory j
            = emptyState.directory j :=
  c7_fresh_slot_duplicates.1 emptyState _ ['a'] [1] 0 rfl

theorem putCopyLoop_ok_elements :
    ∀ (cs : List (List Nat)) (us : Nat → Bool) (fd : Nat → Nat → Nat)
      (iter : Nat) (failAt : Option Nat) (us' : Nat → Bool)
      (fd' : Nat → Nat → Nat) (alloc : List Nat),
      putCopyLoop failAt iter us fd cs = .ok us' fd' alloc →
      alloc.length = cs.length ∧ ∀ b ∈ alloc, b < TOTAL_BLOCKS := by
  intro cs
  induction cs with
  | nil =>
    intro us fd iter failAt us' fd' alloc h
    simp only [putCopyLoop] at h
    injection h with h1 h2 h3
    subst h3
    exact ⟨rfl, fun b hb => absurd hb (List.not_mem_nil b)⟩
  | cons c rest ih =>
    intro us fd iter failAt us' fd' alloc h
    cases hnb : get_free_block us with
    | none => simp only [putCopyLoop, hnb] at h; cases h
    | some nb =>
      simp only [putCopyLoop, hnb] at h
      by_cases hfa : failAt = some iter
      · rw [if_pos hfa] at h; cases h
      · rw [if_neg hfa] at h
        cases hrec : putCopyLoop failAt (iter + 1) (updFn us nb true)
            (writeChunk fd nb c) rest with
        | ub => simp only [hrec] at h; cases h
        | readErr u f a => simp only [hrec] at h; cases h
        | ok u f a =>
          simp only [hrec] at h
          injection h with h1 h2 h3
          subst h3
          obtain ⟨hlen, hmem⟩ := ih _ _ _ _ _ _ _ hrec
          have hnblt : nb < TOTAL_BLOCKS := ((get_free_block_spec us nb).mp hnb).1
          constructor
          · simp [hlen]
          · intro b hb
            rcases List.mem_cons.mp hb with rfl | hb'
            · exact hnblt
            · exact hmem b hb'

/-- Claim C10: `delete`'s freeing loop stops only at a sentinel.  For any
accepted file occupying at most 47 blocks, a sentinel is present in the
entry's 48-entry block list and the loop completes with every read in
bounds; for a file occupying exactly 48 blocks (declared length above
47·BLOCK_SIZE), the sentinel-fill loop writes nothing, the stored list
holds 48 block indices and no sentinel, and the loop runs off the end of
the array — the read of `blocks[48]`, modelled as the `oobList` outcome. -/
theorem c10_delete_sentinel_bounds :
    (∀ (st : FSState) (name : List Char) (bytes : List Nat) (now : Nat),
      validName name = true →
      bytes.length ≤ disk_availability st.used_space →
      (get_new_file_entry st.directory).isSome = true →
      bytes.length ≤ 47 * BLOCK_SIZE →
      ∃ st' idx, put st name bytes none now = .ok st'
        ∧ get_new_file_entry st.directory = some idx
        ∧ (-1 : Int) ∈ (st'.directory idx).blocks
        ∧ ∃ out, deleteCopyLoop st'.used_space st'.file_data
            (st'.directory idx).blocks = .ok out)
    ∧ (∀ (st : FSState) (name : List Char) (bytes : List Nat) (now : Nat),
      validName name = true →
      bytes.length ≤ MAX_FILE_SIZE →
      bytes.length ≤ disk_availability st.used_space →
      (get_new_file_entry st.directory).isSome = true →
      47 * BLOCK_SIZE < bytes.length →
      ∃ st' idx, put st name bytes none now = .ok st'
        ∧ get_new_file_entry st.directory = some idx
        ∧ (∀ b ∈ (st'.directory idx).blocks, 0 ≤ b)
        ∧ deleteCopyLoop st'.used_space st'.file_data
            (st'.directory idx).blocks = .oobList) := by
  constructor
  · intro st name bytes now hname havail hslot hsmall
    have hsize : bytes.length ≤ MAX_FILE_SIZE := by
      have h1 : (47 * BLOCK_SIZE : Nat) ≤ MAX_FILE_SIZE := by decide
      omega
    obtain ⟨idx, hslot'⟩ := Option.isSome_iff_exists.mp hslot
    obtain ⟨us', fd', alloc, hloop, hspec, hput⟩ :=
      put_ok_build st name bytes now idx hname hsize havail hslot'
    have hupd : updFn st.directory idx (putInode name bytes.length now alloc) idx
        = putInode name bytes.length now alloc := by
      simp [updFn]
    have hk : alloc.length ≤ 47 := by
      rw [hspec.len, chunks_length bytes hsize]
      simp only [BLOCK_SIZE] at hsmall ⊢
      omega
    have h48 : MAX_FILE_BLOCKS = 48 := by decide
    have hblocks : (putInode name bytes.length now alloc).blocks
        = alloc.map Int.ofNat
          ++ (-1 : Int) :: List.replicate (MAX_FILE_BLOCKS - alloc.length - 1) (-1) := by
      show alloc.map Int.ofNat
          ++ List.replicate (MAX_FILE_BLOCKS - alloc.length) (-1) = _
      have hm : MAX_FILE_BLOCKS - alloc.length
          = (MAX_FILE_BLOCKS - alloc.length - 1) + 1 := by omega
      conv_lhs => rw [hm, List.replicate_succ]
    have hbounds : ∀ b ∈ alloc.map Int.ofNat, 0 ≤ b ∧ b < (TOTAL_BLOCKS : Int) := by
      intro b hb
      obtain ⟨a, ha, rfl⟩ := List.mem_map.mp hb
      exact ⟨Int.ofNat_nonneg a, Int.ofNat_lt.mpr (hspec.mem a ha).1⟩
    refine ⟨_, idx, hput, hslot', ?_, ?_⟩
    · show (-1 : Int) ∈ (updFn st.directory idx
        (putInode name bytes.length now alloc) idx).blocks
      rw [hupd, hblocks]
      exact List.mem_append.mpr (Or.inr (List.mem_cons_self _ _))
    · show ∃ out, deleteCopyLoop us' fd' ((updFn st.directory idx
        (putInode name bytes.length now alloc) idx).blocks) = .ok out
      rw [hupd, hblocks]
      exact deleteCopyLoop_completes (alloc.map Int.ofNat) us' fd' (-1) _
        hbounds (by omega)
  · intro st name bytes now hname hsize havail hslot hbig
    obtain ⟨idx, hslot'⟩ := Option.isSome_iff_exists.mp hslot
    obtain ⟨us', fd', alloc, hloop, hspec, hput⟩ :=
      put_ok_build st name bytes now idx hname hsize havail hslot'
    have hupd : updFn st.directory idx (putInode name bytes.length now alloc) idx
        = putInode name bytes.length now alloc := by
      simp [updFn]
    have h48 : MAX_FILE_BLOCKS = 48 := by decide
    have hk : alloc.length = MAX_FILE_BLOCKS := by
      rw [hspec.len, chunks_length bytes hsize]
      simp only [BLOCK_SIZE] at hbig ⊢
      simp only [MAX_FILE_SIZE] at hsize
      rw [h48]
      omega
    have hblocks : (putInode name bytes.length now alloc).blocks
        = alloc.map Int.ofNat := by
      show alloc.map Int.ofNat
          ++ List.replicate (MAX_FILE_BLOCKS - alloc.length) (-1) = _
      rw [hk, Nat.sub_self]
      simp
    have hbounds : ∀ b ∈ alloc.map Int.ofNat, 0 ≤ b ∧ b < (TOTAL_BLOCKS : Int) := by
      intro b hb
      obtain ⟨a, ha, rfl⟩ := List.mem_map.mp hb
      exact ⟨Int.ofNat_nonneg a, Int.ofNat_lt.mpr (hspec.mem a ha).1⟩
    refine ⟨_, idx, hput, hslot', ?_, ?_⟩
    · show ∀ b ∈ (updFn st.directory idx
        (putInode name bytes.length now alloc) idx).blocks, (0 : Int) ≤ b
      rw [hupd, hblocks]
      intro b hb
      exact (hbounds b hb).1
    · show deleteCopyLoop us' fd' ((updFn st.directory idx
        (putInode name bytes.length now alloc) idx).blocks) = .oobList
      rw [hupd, hblocks]
      exact deleteCopyLoop_no_sentinel (alloc.map Int.ofNat) us' fd' hbounds

/-- Witness for C10: a 3-byte file (one block, sentinel present, loop in
bounds) and a 96257-byte file (48 blocks, no sentinel, loop reads past
the array), both from the empty state. -/
theorem c10_witness :
    (∃ st' idx, put emptyState ['a'] [1, 2, 3] none 0 = .ok st'
      ∧ get_new_file_entry emptyState.directory = some idx
      ∧ (-1 : Int) ∈ (st'.directory idx).blocks
      ∧ ∃ out, deleteCopyLoop st'.used_space st'.file_data
          (st'.directory idx).blocks = .ok out)
    ∧ (∃ st' idx, put emptyState ['b'] (List.replicate 96257 1) none 0 = .ok st'
      ∧ get_new_file_entry emptyState.directory = some idx
      ∧ (∀ b ∈ (st'.directory idx).blocks, (0 : Int) ≤ b)
      ∧ deleteCopyLoop st'.used_space st'.file_data
          (st'.directory idx).blocks = .oobList) :=
  ⟨c10_delete_sentinel_bounds.1 emptyState ['a'] [1, 2, 3] 0 (by decide)
      (by decide) (by decide) (by decide),
   c10_delete_sentinel_bounds.2 emptyState ['b'] (List.replicate 96257 1) 0
      (by decide)
      (by rw [List.length_replicate]; decide)
      (by rw [List.length_replicate]; decide)
      (by decide)
      (by rw [List.length_replicate]; decide)⟩

/-! ### The mid-loop source read error: `put` is not atomic -/

/-- The state the C code leaves behind when `put` of a two-chunk (4096-byte)
source into the empty file system suffers an fread failure on the second
chunk: block 0 is already marked InUse and filled with the first chunk, and
slot 0's block list already holds the allocation — but the early `return`
skips the entry fields, so the slot stays unused. -/
def readErrState : FSState :=
  { directory := updFn emptyState.directory 0
      { emptyState.directory 0 with
        blocks := [((0 : Nat) : Int)]
          ++ (emptyState.directory 0).blocks.drop 1 }
    used_space := updFn emptyState.used_space 0 true
    file_data := writeChunk emptyState.file_data 0 (List.replicate 2048 0) }

theorem chunks_replicate_4096 :
    chunks (List.replicate 4096 (0 : Nat))
      = [List.replicate 2048 0, List.replicate 2048 0] := by
  have h1 : List.replicate 4096 (0 : Nat) ≠ [] := by
    apply List.ne_nil_of_length_pos
    rw [List.length_replicate]; decide
  have h2 : List.replicate 2048 (0 : Nat) ≠ [] := by
    apply List.ne_nil_of_length_pos
    rw [List.length_replicate]; decide
  show chunksGo MAX_FILE_BLOCKS (List.replicate 4096 0) = _
  rw [show MAX_FILE_BLOCKS = 47 + 1 from by decide]
  rw [chunksGo_cons 47 _ h1]
  rw [List.take_replicate, List.drop_replicate]
  rw [show min BLOCK_SIZE 4096 = 2048 from by decide,
    show (4096 - BLOCK_SIZE : Nat) = 2048 from by decide]
  rw [show (47 : Nat) = 46 + 1 from rfl]
  rw [chunksGo_cons 46 _ h2]
  rw [List.take_replicate, List.drop_replicate]
  rw [show min BLOCK_SIZE 2048 = 2048 from by decide,
    show (2048 - BLOCK_SIZE : Nat) = 0 from by decide]
  rw [show List.replicate 0 (0 : Nat) = [] from rfl, chunksGo_nil_any 46]

/-- The concrete failing run: two free blocks are needed, the fread of
iteration 1 fails, and `put` returns the source-read-error with block 0
leaked. -/
theorem readErr_scenario :
    put emptyState ['a'] (List.replicate 4096 0) (some 1) 0
      = .err .sourceReadError readErrState := by
  have hgfe : get_new_file_entry emptyState.directory = some 0 := by decide
  have hgfb0 : get_free_block emptyState.used_space = some 0 := by decide
  have hgfb1 : get_free_block (updFn emptyState.used_space 0 true)
      = some 1 := by decide
  have hloop : putCopyLoop (some 1) 0 emptyState.used_space
      emptyState.file_data [List.replicate 2048 0, List.replicate 2048 0]
      = .readErr (updFn emptyState.used_space 0 true)
          (writeChunk emptyState.file_data 0 (List.replicate 2048 0)) [0] := by
    simp only [putCopyLoop, hgfb0, hgfb1]
    rw [if_pos trivial, if_neg (show ¬ (some 1 = some 0) from by decide)]
  unfold put
  rw [if_neg (by decide), if_neg (by decide),
    if_neg (by rw [List.length_replicate]; decide),
    if_neg (by rw [List.length_replicate]; decide)]
  simp only [hgfe, chunks_replicate_4096, hloop, readErrState]
  rfl

/-- Claim C3: the claimed failure atomicity of `put` is FALSE in the code.
On the pre-validated failures it holds, but when an fread fails part-way
through the copy loop the C code returns immediately without rolling back:
in the concrete run below, block 0 — Free before the call — is left marked
InUse while no directory slot is in use, i.e. the Block Pool occupancy was
mutated by a failing `put`. -/
theorem c3_failure_atomicity_bug :
    put emptyState ['a'] (List.replicate 4096 0) (some 1) 0
      = .err .sourceReadError readErrState
    ∧ emptyState.used_space 0 = false
    ∧ readErrState.used_space 0 = true
    ∧ (readErrState.directory 0).used = false :=
  ⟨readErr_scenario, rfl, rfl, rfl⟩

theorem refCount_readErrState (b : Nat) :
    refCount readErrState.directory b = 0 := by
  unfold refCount
  apply List.sum_eq_zero
  intro x hx
  obtain ⟨i, _, rfl⟩ := List.mem_map.mp hx
  by_cases h : i = 0
  · subst h
    simp [entryRefs, readErrState, updFn, emptyState, initInode]
  · simp [entryRefs, readErrState, updFn, h, emptyState, initInode]

/-- Counterexample to C2 as stated: the invariant is claimed "after every
sequence of put and delete operations", but a `put` that fails with a
source read error is such an operation and breaks it: starting from the
empty state (which satisfies the invariant), the failing two-chunk `put`
leaves block 0 InUse while no used directory entry references it. -/
theorem c2_counterexample :
    ClaimInv emptyState
    ∧ put emptyState ['a'] (List.replicate 4096 0) (some 1) 0
        = .err .sourceReadError readErrState
    ∧ readErrState.used_space 0 = true
    ∧ refCount readErrState.directory 0 = 0
    ∧ ¬ ClaimInv readErrState := by
  refine ⟨claimInv_empty, readErr_scenario, rfl, refCount_readErrState 0, ?_⟩
  intro hinv
  have h1 := ((hinv.1 0 (by decide)).1).mp rfl
  rw [refCount_readErrState 0] at h1
  cases h1

/-- Claim C2 (amended): the space-accounting invariant — every InUse block
is referenced by exactly one used entry's block list, no used entry
references a Free block, and free bytes plus InUse-block bytes equal
640 · 2048 — holds after every sequence of COMPLETED put and delete
operations, i.e. as long as no `put` aborts on a mid-loop source read
error (the outcome excluded by `failAt = none` in `Step`). -/
theorem c2_invariant_preserved (st : FSState) (h : Reachable st) :
    ClaimInv st :=
  (reachable_invFull st h).1

/-- Witness for C2: the invariant after one completed `put` from the empty
state. -/
theorem c2_witness :
    ClaimInv (outcomeState (put emptyState ['a'] [1] none 0)) :=
  c2_invariant_preserved _
    (Relation.ReflTransGen.single (Step.putOk _ _ ['a'] [1] 0 rfl))

/-! ### What `delete` actually leaves behind -/

/-- The state after storing the two-byte file `a` = [7, 8] in the empty
file system (it lands in slot 0, block 0). -/
def c4PutState : FSState := outcomeState (put emptyState ['a'] [7, 8] none 0)

/-- The state after then deleting `a` again. -/
def c4DelState : FSState := delOkState (delete c4PutState ['a'])

/-- Counterexample to C4 as stated: after a successful `delete` the freed
block's logical content is NOT zeroed (only its first byte is: the stale
byte 8 survives at offset 1), and the slot's block list is NOT restored to
all-sentinel: the freed prefix is overwritten with 0 (`UNSET`), which is a
valid block index, not the sentinel -1. -/
theorem c4_counterexample :
    delete c4PutState ['a'] = .ok c4DelState
    ∧ c4DelState.file_data 0 0 = 0
    ∧ c4DelState.file_data 0 1 = 8
    ∧ (c4DelState.directory 0).blocks.get? 0 = some (0 : Int)
    ∧ (c4DelState.directory 0).blocks ≠ List.replicate MAX_FILE_BLOCKS (-1 : Int)
    ∧ c4DelState.used_space 0 = false :=
  ⟨rfl, rfl, rfl, by decide, by decide, rfl⟩

/-- Claim C4 (amended): a successful `delete(name)` resolves `name` to a
slot, splits that slot's block list at the first sentinel, marks every
block index of the prefix Free while zeroing only byte 0 of each such
block, resets the slot's `used`/name/size/timestamp, and overwrites the
freed prefix of the block list with `UNSET` (0) — keeping the sentinel and
the tail as they were, not restoring all-sentinel.  Occupancy and content
of all other blocks, and all other slots, are unchanged. -/
theorem c4_delete_postcondition (st : FSState) (name : List Char)
    (st' : FSState) (hdel : delete st name = .ok st') :
    ∃ idx pre s rest, find_file_first st name = some idx
      ∧ (st.directory idx).blocks = pre ++ s :: rest
      ∧ (∀ b ∈ pre, 0 ≤ b ∧ b < (TOTAL_BLOCKS : Int))
      ∧ s ≤ -1
      ∧ st'.directory idx
          = freedInode (List.replicate pre.length (0 : Int) ++ s :: rest)
      ∧ (∀ j, j ≠ idx → st'.directory j = st.directory j)
      ∧ ∀ b : Nat,
          ((b : Int) ∈ pre → st'.used_space b = false
            ∧ st'.file_data b 0 = 0
            ∧ ∀ i, i ≠ 0 → st'.file_data b i = st.file_data b i)
          ∧ ((b : Int) ∉ pre → st'.used_space b = st.used_space b
            ∧ ∀ i, st'.file_data b i = st.file_data b i) := by
  cases hf : find_file_first st name with
  | none => simp only [delete, hf] at hdel; cases hdel
  | some idx =>
    simp only [delete, hf] at hdel
    cases hloop : deleteCopyLoop st.used_space st.file_data
        (st.directory idx).blocks with
    | oobList => simp only [hloop] at hdel; cases hdel
    | oobBlock => simp only [hloop] at hdel; cases hdel
    | ok out =>
      simp only [hloop] at hdel
      injection hdel with hst'
      obtain ⟨pre, s, rest, hbl, hpre, hs, hnew, hstate⟩ :=
        deleteCopyLoop_ok_spec _ _ _ _ hloop
      refine ⟨idx, pre, s, rest, rfl, hbl, hpre, hs, ?_, ?_, ?_⟩
      · rw [← hst']
        show updFn st.directory idx (freedInode out.newBlocks) idx = _
        rw [show updFn st.directory idx (freedInode out.newBlocks) idx
          = freedInode out.newBlocks from by simp [updFn]]
        rw [hnew]
      · intro j hj
        rw [← hst']
        show updFn st.directory idx (freedInode out.newBlocks) j = _
        simp [updFn, hj]
      · intro b
        constructor
        · intro hmem
          have h1 := (hstate b).1 hmem
          rw [← hst']
          exact ⟨h1.1, h1.2.1, fun i hi => h1.2.2 i hi⟩
        · intro hmem
          have h1 := (hstate b).2 hmem
          rw [← hst']
          exact ⟨h1.1, fun i => h1.2 i⟩

/-- Witness for C4: deleting the two-byte file of `c4PutState`. -/
theorem c4_witness :
    ∃ idx pre s rest, find_file_first c4PutState ['a'] = some idx
      ∧ (c4PutState.directory idx).blocks = pre ++ s :: rest
      ∧ (∀ b ∈ pre, 0 ≤ b ∧ b < (TOTAL_BLOCKS : Int))
      ∧ s ≤ -1
      ∧ c4DelState.directory idx
          = freedInode (List.replicate pre.length (0 : Int) ++ s :: rest)
      ∧ (∀ j, j ≠ idx → c4DelState.directory j = c4PutState.directory j)
      ∧ ∀ b : Nat,
          ((b : Int) ∈ pre → c4DelState.used_space b = false
            ∧ c4DelState.file_data b 0 = 0
            ∧ ∀ i, i ≠ 0 → c4DelState.file_data b i = c4PutState.file_data b i)
          ∧ ((b : Int) ∉ pre → c4DelState.used_space b = c4PutState.used_space b
            ∧ ∀ i, c4DelState.file_data b i = c4PutState.file_data b i) :=
  c4_delete_postcondition c4PutState ['a'] c4DelState rfl

end FileSystemMock
